import Mathlib

/-!
Verification of the cost-matrix core of the valhalla routing engine
(src/valhalla/thor/costmatrix.h), a bidirectional many-to-many
shortest-path engine after Knopp.  The header declares the data model
(`BestCandidate`, `LocationStatus`, the cost-threshold divisors) and the
operations (`SourceToTarget`, `ForwardSearch`, `BackwardSearch`,
`CheckForwardConnections`, `clear`, `SetOriginTimes`); the bodies of the
search routines live in a translation unit that is not part of this
source tree, so those routines are modelled here from the specification
and each such definition is marked `Modelled from the spec:`.

Machine `float` quantities (costs, distances used as costs) are embedded
as `Rat`, an exact ordered field: none of the verified properties depend
on rounding behaviour.  The opaque 64-bit `baldr::GraphId` is embedded as
a `Nat` wrapper.
-/

namespace Valhalla

/-- Opaque identifier of a directed edge of the tiled graph
(`baldr::GraphId`, an opaque 64-bit value). -/
structure GraphId where
  value : Nat
deriving DecidableEq, Repr, Inhabited

/-- `sif::Cost`: a pair of optimization cost and elapsed seconds.
Costs compose by addition. -/
structure Cost where
  cost : Rat
  secs : Rat
deriving DecidableEq, Repr, Inhabited

/-- Componentwise addition of costs. -/
def Cost.add (a b : Cost) : Cost :=
  ⟨a.cost + b.cost, a.secs + b.secs⟩

instance : Add Cost := ⟨Cost.add⟩

/-- `LocationStatus` from costmatrix.h: a remaining-iterations threshold
and the set of opposing-side location indices not yet connected.  The
`std::set` is embedded as a list of indices. -/
structure LocationStatus where
  threshold : Int
  remaining_locations : List Nat
deriving DecidableEq, Repr, Inhabited

/-- The `LocationStatus(const int t)` constructor from costmatrix.h:
sets the threshold, leaves the remaining set empty. -/
def LocationStatus.make (t : Int) : LocationStatus :=
  ⟨t, []⟩

/-- `BestCandidate` from costmatrix.h: information about the best
connection found so far between one (source, target) pair. -/
structure BestCandidate where
  found : Bool
  edgeid : GraphId
  opp_edgeid : GraphId
  cost : Cost
  distance : Nat
  threshold : Nat
deriving DecidableEq, Repr, Inhabited

/-- The `BestCandidate(e1, e2, c, d)` constructor from costmatrix.h:
initializes `found` to `false` and `threshold` to `0` while storing the
given edges, cost and distance. -/
def BestCandidate.make (e1 e2 : GraphId) (c : Cost) (d : Nat) : BestCandidate :=
  ⟨false, e1, e2, c, d, 0⟩

/-- `BestCandidate::Update` from costmatrix.h: overwrite the meeting
edges, cost and distance; the `found` flag and `threshold` counter are
not assigned. -/
def BestCandidate.Update (b : BestCandidate) (e1 e2 : GraphId) (c : Cost) (d : Nat) :
    BestCandidate :=
  { b with edgeid := e1, opp_edgeid := e2, cost := c, distance := d }

/-- The travel modes distinguished by the cost-threshold computation
(auto/drive, bicycle, pedestrian). -/
inductive TravelMode where
  | drive
  | bicycle
  | pedestrian
deriving DecidableEq, Repr, Inhabited

/-- `kCostThresholdAutoDivisor` from costmatrix.h. -/
def kCostThresholdAutoDivisor : Rat := 56

/-- `kCostThresholdBicycleDivisor` from costmatrix.h. -/
def kCostThresholdBicycleDivisor : Rat := 56

/-- `kCostThresholdPedestrianDivisor` from costmatrix.h. -/
def kCostThresholdPedestrianDivisor : Rat := 28

/-- Modelled from the spec: the body of `CostMatrix::GetCostThreshold`
is not part of this source tree (only its declaration in costmatrix.h
is).  Spec 4.5: the cost threshold is derived from `max_matrix_distance`
via a mode-specific divisor (auto: distance/56; bicycle: distance/56;
pedestrian: distance/28), using the divisor constants declared in
costmatrix.h. -/
def GetCostThreshold (mode : TravelMode) (max_matrix_distance : Rat) : Rat :=
  match mode with
  | .drive => max_matrix_distance / kCostThresholdAutoDivisor
  | .bicycle => max_matrix_distance / kCostThresholdBicycleDivisor
  | .pedestrian => max_matrix_distance / kCostThresholdPedestrianDivisor

/-- A location of the request, as consumed by `SetOriginTimes`
(`valhalla::Location`); its contents are opaque to the cost-matrix core
and embedded as a payload. -/
structure Location where
  data : Nat
deriving DecidableEq, Repr, Inhabited

/-- `baldr::TimeInfo`, opaque to the cost-matrix core. -/
structure TimeInfo where
  info : Nat
deriving DecidableEq, Repr, Inhabited

/-- `CostMatrix::SetOriginTimes` from costmatrix.h (the body is in the
header): loop over the origins, appending `TimeInfo::make(origin, ...)`
for each to an initially empty vector.  The external
`baldr::TimeInfo::make` (together with the reader and timezone cache it
captures) is abstracted as the function argument `make`. -/
def SetOriginTimes (make : Location → TimeInfo) (origins : List Location) : List TimeInfo :=
  origins.foldl (fun infos origin => infos ++ [make origin]) []

/-! ## The tiled road graph and the costing interface (spec 3, 6)

The graph reader and the per-mode costing are external collaborators of
the cost-matrix core (spec 1, 6); the core consumes them through the
interface below.  Directed edges carry their opposing twin, endpoints
and arc length; a costing provides the access test, the edge cost and
the transition cost (spec 6). -/
/-- A directed edge of the road graph, with its opposing twin, endpoint
nodes and arc length (spec 3 GraphId / spec 6 graph reader). -/
structure Edge where
  id : Nat
  opp : Nat
  startNode : Nat
  endNode : Nat
  dist : Nat
deriving DecidableEq, Repr, Inhabited

/-- The road graph as consumed by the core: a finite edge list (tiles
are immutable snapshots, spec 6). -/
structure Graph where
  edges : List Edge
deriving DecidableEq, Repr, Inhabited

/-- The costing interface consumed by the core (spec 6): access test,
edge cost and transition cost for one direction of traversal.  The
engine holds one such record for the forward functions and one for the
reverse analogs. -/
structure Costing where
  allowed : Edge → Bool
  edge_cost : Edge → Cost
  transition_cost : Nat → Edge → Cost
deriving Inhabited

/-- A bidirectional edge label (spec 3 EdgeLabel): predecessor label
index, edge id, opposing edge id, end node, accumulated cost and
accumulated distance. -/
structure Label where
  predecessor : Option Nat
  edgeid : Nat
  opp_edgeid : Nat
  endNode : Nat
  cost : Cost
  distance : Nat
deriving DecidableEq, Repr, Inhabited

/-- Edge status within one per-location search (spec 3 EdgeStatus):
Unreached, Temporary (in queue) or Permanent (settled), augmented with
the label index. -/
inductive EdgeSt where
  | unreached
  | temporary (idx : Nat)
  | permanent (idx : Nat)
deriving DecidableEq, Repr, Inhabited

/-- Read an edge-status map (an association list from edge id to
status); absent edges are Unreached. -/
def getStatus (es : List (Nat × EdgeSt)) (e : Nat) : EdgeSt :=
  match es.lookup e with
  | some s => s
  | none => .unreached

/-- Write one edge's status in an edge-status map. -/
def setStatus (es : List (Nat × EdgeSt)) (e : Nat) (s : EdgeSt) : List (Nat × EdgeSt) :=
  (e, s) :: es.filter (fun p => p.1 != e)

/-! ## Per-location search state (spec 2, 3)

Each source (forward) and each target (reverse) owns one priority
queue, one edge-label buffer and one edge-status map (the
`source_adjacency_` / `source_edgelabel_` / `source_edgestatus_` and
target counterparts of costmatrix.h).  The double-bucket queue is
embedded as the list of queued label indices with an explicit pop-min;
labels are append-only and their index is the predecessor pointer
(spec 3). -/
/-- One per-location search: queue of label indices, label buffer,
edge-status map. -/
structure LocSearch where
  adjacency : List Nat
  edgelabel : List Label
  edgestatus : List (Nat × EdgeSt)
deriving DecidableEq, Repr, Inhabited

/-- The sort key of a queued label: cost, tie-broken by shorter
distance, then by lower edge identifier (spec 4.2 tie-breaks). -/
def labelKey (ls : LocSearch) (i : Nat) : Rat × Nat × Nat :=
  let l := ls.edgelabel.getD i default
  (l.cost.cost, l.distance, l.edgeid)

/-- Strict comparison of sort keys (cost, then distance, then id). -/
def keyLt (a b : Rat × Nat × Nat) : Bool :=
  if a.1 < b.1 then true
  else if b.1 < a.1 then false
  else if a.2.1 < b.2.1 then true
  else if b.2.1 < a.2.1 then false
  else decide (a.2.2 < b.2.2)

/-- Index of the cheapest queued label, if any. -/
def pickMin (ls : LocSearch) : Option Nat :=
  ls.adjacency.foldl
    (fun acc i =>
      match acc with
      | none => some i
      | some j => if keyLt (labelKey ls i) (labelKey ls j) then some i else some j)
    none

/-- Pop the cheapest label index from the queue (spec 4.2: pop the
cheapest edge label from the location's queue). -/
def popMin (ls : LocSearch) : Option (Nat × LocSearch) :=
  match pickMin ls with
  | none => none
  | some i => some (i, { ls with adjacency := ls.adjacency.erase i })

/-- Outcome of one pop of a per-location queue. -/
inductive PopResult where
  | exhausted
  | pruned (i : Nat) (ls : LocSearch)
  | settled (i : Nat) (p : Label) (ls : LocSearch)
deriving Repr

/-- Modelled from the spec: the pop-and-settle prefix of the search-step
bodies (`CostMatrix::ForwardSearch` / `BackwardSearch`), which are not
part of this source tree.  Spec 4.2: pop the cheapest label; if the
queue is empty the location is exhausted.  Spec 4.5 with the comment
above the divisor constants in costmatrix.h: a popped label whose cost
exceeds the cost threshold is discarded and the search terminated.
Otherwise the edge is marked Permanent (settled). -/
def popAndSettle (thr : Rat) (ls : LocSearch) : PopResult :=
  match popMin ls with
  | none => .exhausted
  | some (i, ls1) =>
    let p := ls1.edgelabel.getD i default
    if thr < p.cost.cost then .pruned i ls1
    else .settled i p
      { ls1 with edgestatus := setStatus ls1.edgestatus p.edgeid (.permanent i) }

/-- Modelled from the spec: the relaxation of one outgoing edge inside
the expansion step (spec 4.2 item 2), whose implementation is not part
of this source tree.  Skip if access is disallowed or the edge is
already Permanent; if Temporary and the new cost is cheaper, decrease
key in place (never re-insert); if Unreached, append a fresh label and
mark it Temporary. -/
def relax (c : Costing) (predIdx : Nat) (p : Label) (ls : LocSearch) (e : Edge) : LocSearch :=
  if c.allowed e = false then ls
  else
    match getStatus ls.edgestatus e.id with
    | .permanent _ => ls
    | .temporary i =>
      let newc := p.cost + c.edge_cost e + c.transition_cost p.edgeid e
      let old := ls.edgelabel.getD i default
      if newc.cost < old.cost.cost then
        { ls with
          edgelabel := ls.edgelabel.set i
            { old with predecessor := some predIdx, cost := newc,
                       distance := p.distance + e.dist } }
      else ls
    | .unreached =>
      let newc := p.cost + c.edge_cost e + c.transition_cost p.edgeid e
      let idx := ls.edgelabel.length
      { adjacency := idx :: ls.adjacency,
        edgelabel := ls.edgelabel ++
          [⟨some predIdx, e.id, e.opp, e.endNode, newc, p.distance + e.dist⟩],
        edgestatus := setStatus ls.edgestatus e.id (.temporary idx) }

/-- Modelled from the spec: the expansion over all outgoing edges of the
settled label's end node (spec 4.2 item 2). -/
def expand (g : Graph) (c : Costing) (predIdx : Nat) (p : Label) (ls : LocSearch) : LocSearch :=
  (g.edges.filter (fun e => e.startNode == p.endNode)).foldl (relax c predIdx p) ls

/-- Modelled from the spec: the per-location portion of one search step
(shared by the forward and the reverse searches): pop, settle and
expand; the returned flag is whether the search may continue (false
when the queue is exhausted or the popped label exceeded the cost
threshold, spec 4.2, 4.5). -/
def searchStep (g : Graph) (c : Costing) (thr : Rat) (ls : LocSearch) : LocSearch × Bool :=
  match popAndSettle thr ls with
  | .exhausted => (ls, false)
  | .pruned _ ls1 => (ls1, false)
  | .settled i p ls2 => (expand g c i p ls2, true)

/-! ## The many-to-many engine state (spec 2-4; costmatrix.h members)

`MatrixState` mirrors the per-query members of `class CostMatrix`:
the per-location statuses, the per-location searches, the best
connections, the target-edge index (`TargetMap`, hidden behind a pimpl
in the header and embedded here as an association list, spec 4.6, 9),
the remaining counts and the current cost threshold.  The bodies of the
member functions operating on them are not part of this source tree and
are modelled from the spec below. -/

/-- The per-query state of a `CostMatrix` engine (the data members of
costmatrix.h). -/
structure MatrixState where
  source_status : List LocationStatus
  target_status : List LocationStatus
  sources : List LocSearch
  targets : List LocSearch
  best_connection : List BestCandidate
  target_map : List (Nat × List (Nat × Nat))
  remaining_sources : Nat
  remaining_targets : Nat
  current_cost_threshold : Rat
deriving DecidableEq, Repr, Inhabited

/-- Apply a function to the i-th element of a list (identity out of
range). -/
def setAt {α : Type} [Inhabited α] (l : List α) (i : Nat) (f : α → α) : List α :=
  l.set i (f (l.getD i default))

/-- Targets that have reached an edge: lookup in the target-edge index
(spec 4.6: `edgeid → list of (target_index, label_index)`). -/
def getTargets (tm : List (Nat × List (Nat × Nat))) (e : Nat) : List (Nat × Nat) :=
  (tm.lookup e).getD []

/-- Append-only insert into the target-edge index (spec 4.6). -/
def tmInsert (tm : List (Nat × List (Nat × Nat))) (e t li : Nat) :
    List (Nat × Nat × Nat) → List (Nat × List (Nat × Nat)) :=
  fun _ => (e, getTargets tm e ++ [(t, li)]) :: tm.filter (fun p => p.1 != e)

/-- The per-pair post-meeting threshold (spec 6 tunable
`pair_meeting_threshold`; spec 9 recommends 16). -/
def pair_meeting_threshold : Nat := 16

/-- Modelled from the spec: `CostMatrix::UpdateStatus`, whose body is
not part of this source tree (only its declaration in costmatrix.h is).
Spec 4.2 item 1: remove the target from the source's remaining set and
the source from the target's remaining set. -/
def UpdateStatus (s t : Nat) (st : MatrixState) : MatrixState :=
  { st with
    source_status := setAt st.source_status s
      (fun ss => { ss with remaining_locations := ss.remaining_locations.filter (fun x => x != t) }),
    target_status := setAt st.target_status t
      (fun ts => { ts with remaining_locations := ts.remaining_locations.filter (fun x => x != s) }) }

/-- Modelled from the spec: the treatment of one hit of the target-edge
index inside `CostMatrix::CheckForwardConnections` (spec 4.2 item 1 and
4.4): combine the forward and reverse label costs; on the first meeting
for the pair record it, set `found`, arm the per-pair threshold and run
`UpdateStatus`; afterwards, a new meeting replaces the best connection
only when its cost is strictly lower.  The flag of the accumulator
records whether any best-connection update occurred. -/
def cfcStep (T s : Nat) (pred : Label) (acc : MatrixState × Bool) (hit : Nat × Nat) :
    MatrixState × Bool :=
  let st0 := acc.1
  let t := hit.1
  let rl := (st0.targets.getD t default).edgelabel.getD hit.2 default
  let c := pred.cost + rl.cost
  let d := pred.distance + rl.distance
  let idx := s * T + t
  let b := st0.best_connection.getD idx default
  if t ∈ (st0.source_status.getD s default).remaining_locations then
    let b1 := { b.Update ⟨pred.edgeid⟩ ⟨pred.opp_edgeid⟩ c d with
                found := true, threshold := pair_meeting_threshold }
    (UpdateStatus s t { st0 with best_connection := st0.best_connection.set idx b1 }, true)
  else if c.cost < b.cost.cost then
    ({ st0 with best_connection :=
        st0.best_connection.set idx (b.Update ⟨pred.edgeid⟩ ⟨pred.opp_edgeid⟩ c d) }, true)
  else acc

/-- Modelled from the spec: `CostMatrix::CheckForwardConnections`, whose
body is not part of this source tree (only its declaration in
costmatrix.h is).  Spec 4.2 item 1: look up the settled label's
opposing edge in the target-edge index and treat every target listed
with `cfcStep`. -/
def CheckForwardConnections (T s : Nat) (pred : Label) (st : MatrixState) :
    MatrixState × Bool :=
  (getTargets st.target_map pred.opp_edgeid).foldl (cfcStep T s pred) (st, false)

/-- Modelled from the spec: marking a source terminated (spec 4.1 item
1, spec 4.2: if the pop finds no candidate, or the cost threshold is
exceeded, the source is marked terminated — its threshold goes to 0 —
and `remaining_sources` is decremented). -/
def terminateSource (s : Nat) (st : MatrixState) : MatrixState :=
  { st with
    source_status := setAt st.source_status s (fun ss => { ss with threshold := 0 }),
    remaining_sources := st.remaining_sources - 1 }

/-- Modelled from the spec: marking a target terminated (symmetric to
`terminateSource`, spec 4.1 item 2, 4.3). -/
def terminateTarget (t : Nat) (st : MatrixState) : MatrixState :=
  { st with
    target_status := setAt st.target_status t (fun ts => { ts with threshold := 0 }),
    remaining_targets := st.remaining_targets - 1 }

/-- Modelled from the spec: the remainder of a forward step after a
label was settled (spec 4.2): run the connection check, expand the
outgoing edges, and decay the source's iteration threshold when no
best-connection update occurred and no locations remain (spec 4.2 item
3). -/
def forwardSettle (g : Graph) (c : Costing) (T s i : Nat) (p : Label) (ls2 : LocSearch)
    (st : MatrixState) : MatrixState :=
  let st2 := { st with sources := st.sources.set s ls2 }
  let res := CheckForwardConnections T s p st2
  let st3 := res.1
  let st4 := { st3 with sources := st3.sources.set s (expand g c i p (st3.sources.getD s default)) }
  let decayed : List LocationStatus :=
    setAt st4.source_status s (fun ss => { ss with threshold := ss.threshold - 1 })
  if res.2 = false ∧ (st4.source_status.getD s default).remaining_locations = [] then
    { st4 with source_status := decayed }
  else st4

/-- Modelled from the spec: `CostMatrix::ForwardSearch`, whose body is
not part of this source tree (only its declaration in costmatrix.h is).
Spec 4.2: pop the cheapest label, terminating the source on exhaustion
or when the popped cost exceeds the cost threshold (spec 4.5 and the
comment above the divisor constants in costmatrix.h); otherwise the
label is marked Permanent and `forwardSettle` finishes the step.
Hierarchy-limit and mode-access pruning are both embedded in the
costing's `allowed` predicate. -/
def ForwardSearch (g : Graph) (c : Costing) (T s : Nat) (st : MatrixState) : MatrixState :=
  match popAndSettle st.current_cost_threshold (st.sources.getD s default) with
  | .exhausted => terminateSource s st
  | .pruned _ ls1 => terminateSource s { st with sources := st.sources.set s ls1 }
  | .settled i p ls2 => forwardSettle g c T s i p ls2 st

/-- Modelled from the spec: `CostMatrix::BackwardSearch`, whose body is
not part of this source tree (only its declaration in costmatrix.h is).
Spec 4.3: same per-location step as the forward search but with the
reverse costing; on settling an edge, insert (edge, target, label
index) into the target-edge index.  It performs no connection check. -/
def BackwardSearch (g : Graph) (cr : Costing) (t : Nat) (st : MatrixState) : MatrixState :=
  match popAndSettle st.current_cost_threshold (st.targets.getD t default) with
  | .exhausted => terminateTarget t st
  | .pruned _ ls1 => terminateTarget t { st with targets := st.targets.set t ls1 }
  | .settled i p ls2 =>
    { st with
      targets := st.targets.set t (expand g cr i p ls2),
      target_map := tmInsert st.target_map p.edgeid t i [] }

/-- Modelled from the spec: the driver's guard on one forward step
(spec 4.1 item 1: for each source with a positive threshold, perform
one step of `ForwardSearch`). -/
def forwardDriverStep (g : Graph) (c : Costing) (T s : Nat) (st : MatrixState) : MatrixState :=
  if 0 < (st.source_status.getD s default).threshold then ForwardSearch g c T s st else st

/-- Modelled from the spec: the driver's guard on one backward step
(spec 4.1 item 2). -/
def backwardDriverStep (g : Graph) (cr : Costing) (t : Nat) (st : MatrixState) : MatrixState :=
  if 0 < (st.target_status.getD t default).threshold then BackwardSearch g cr t st else st

/-- One scheduled step of the expansion driver: a forward step of one
source or a backward step of one target (spec 4.1 round-robin). -/
inductive Choice where
  | fwd (s : Nat)
  | bwd (t : Nat)
deriving DecidableEq, Repr

/-- One scheduled driver step (spec 4.1): a guarded forward step of one
source or a guarded backward step of one target. -/
def driverStep (g : Graph) (c cr : Costing) (T : Nat) (ch : Choice) (st : MatrixState) :
    MatrixState :=
  match ch with
  | .fwd s => forwardDriverStep g c T s st
  | .bwd t => backwardDriverStep g cr t st

/-- A run of the expansion driver over an arbitrary schedule of steps
(spec 4.1; round-robin is one such schedule). -/
def driverRun (g : Graph) (c cr : Costing) (T : Nat) (cs : List Choice) (st : MatrixState) :
    MatrixState :=
  cs.foldl (fun st0 ch => driverStep g c cr T ch st0) st

/-! ## Initialization, seeding, output and the public API (spec 4.1,
4.8, 4.9, 6; `SourceToTarget`, `Initialize`, `clear` of costmatrix.h) -/

/-- A candidate edge of a location: a partial edge with a
`percent_along` in [0,1] (spec 4.8). -/
structure SeedEdge where
  edge : Edge
  percent_along : Rat
deriving DecidableEq, Repr, Inhabited

/-- The request as consumed by the core (spec 6): candidate edges per
source and per target, the travel mode and `max_matrix_distance`. -/
structure Request where
  sources : List (List SeedEdge)
  targets : List (List SeedEdge)
  mode : TravelMode
  max_matrix_distance : Rat
deriving DecidableEq, Repr, Inhabited

/-- Modelled from the spec: seeding one location's search (spec 4.8),
part of `CostMatrix::SetSources` / `SetTargets` whose bodies are not in
this source tree.  One initial label per candidate edge, with initial
cost scaled by `1 - percent_along` forward and by `percent_along`
reverse, and edge status Temporary. -/
def seedLoc (c : Costing) (forward : Bool) (cands : List SeedEdge) : LocSearch :=
  cands.foldl
    (fun ls se =>
      let f : Rat := if forward then 1 - se.percent_along else se.percent_along
      let ec := c.edge_cost se.edge
      let idx := ls.edgelabel.length
      { adjacency := idx :: ls.adjacency,
        edgelabel := ls.edgelabel ++
          [⟨none, se.edge.id, se.edge.opp, se.edge.endNode, ⟨ec.cost * f, ec.secs * f⟩, 0⟩],
        edgestatus := setStatus ls.edgestatus se.edge.id (.temporary idx) })
    ⟨[], [], []⟩

/-- Modelled from the spec: `CostMatrix::Initialize`, whose body is not
part of this source tree (only its declaration in costmatrix.h is).
All per-location state is allocated here (spec 3 lifecycles): statuses
with the initial iteration threshold and full remaining sets, seeded
searches, one `BestCandidate` per pair initialized to the not-found
convention (cost 0, distance 0, found false, spec 4.9), an empty
target-edge index, the remaining counts and the cost threshold derived
by `GetCostThreshold` (spec 4.5).  A location with no candidate edges
is terminated immediately (threshold 0, spec 7 InvalidLocation); the
initial iteration threshold of the others is the tunable
`initial_threshold`. -/
def Initialize (st : MatrixState) (c : Costing) (initial_threshold : Int) (req : Request) :
    MatrixState :=
  let S := req.sources.length
  let T := req.targets.length
  { st with
    source_status := (List.range S).map
      (fun s => ⟨if (req.sources.getD s []).isEmpty then 0 else initial_threshold,
                 List.range T⟩),
    target_status := (List.range T).map
      (fun t => ⟨if (req.targets.getD t []).isEmpty then 0 else initial_threshold,
                 List.range S⟩),
    sources := req.sources.map (seedLoc c true),
    targets := req.targets.map (seedLoc c false),
    best_connection := (List.range (S * T)).map
      (fun _ => BestCandidate.make ⟨0⟩ ⟨0⟩ ⟨0, 0⟩ 0),
    target_map := [],
    remaining_sources := S,
    remaining_targets := T,
    current_cost_threshold := GetCostThreshold req.mode req.max_matrix_distance }

/-- One cell of the produced matrix (spec 6: cost, distance and the
found marker of a pair). -/
structure MatrixCell where
  cost : Cost
  distance : Nat
  found : Bool
deriving DecidableEq, Repr, Inhabited

/-- The not-found convention of spec 4.9: cost 0, distance 0, found
false. -/
def notFoundCell : MatrixCell := ⟨⟨0, 0⟩, 0, false⟩

/-- Modelled from the spec: forming one output cell (spec 4.9): a pair
whose connection was found reports its best cost and distance; every
other (recoverable) outcome produces the not-found cell. -/
def FormMatrixCell (b : BestCandidate) : MatrixCell :=
  if b.found then ⟨b.cost, b.distance, true⟩ else notFoundCell

/-- Modelled from the spec: writing the matrix from the best
connections (spec 2 data flow, 4.9). -/
def FormMatrix (st : MatrixState) : List MatrixCell :=
  st.best_connection.map FormMatrixCell

/-- Modelled from the spec: `CostMatrix::clear`, whose body is not part
of this source tree (only its declaration in costmatrix.h is).  Spec 3
lifecycles: all per-query state is released before the next query. -/
def clear (_st : MatrixState) : MatrixState :=
  { source_status := [],
    target_status := [],
    sources := [],
    targets := [],
    best_connection := [],
    target_map := [],
    remaining_sources := 0,
    remaining_targets := 0,
    current_cost_threshold := 0 }

/-- Modelled from the spec: `CostMatrix::SourceToTarget`, whose body is
not part of this source tree (only its declaration in costmatrix.h is).
Initialization, a driver run over a schedule (spec 4.1 round-robin
being one such schedule, with the iteration budget bounded by the
per-location thresholds, spec 8 threshold safety), then the matrix is
written.  The static-cost path is modelled (`has_time = false`); every
recoverable outcome is reflected in the returned matrix, which is total
by construction. -/
def FinalState (g : Graph) (c cr : Costing) (initial_threshold : Int)
    (schedule : List Choice) (req : Request) (prior : MatrixState) : MatrixState :=
  driverRun g c cr req.targets.length schedule
    (Initialize (clear prior) c initial_threshold req)

/-- Modelled from the spec: the matrix returned by one query — see
`FinalState` for the run itself (spec 2 data flow). -/
def SourceToTarget (g : Graph) (c cr : Costing) (initial_threshold : Int)
    (schedule : List Choice) (req : Request) (prior : MatrixState) : List MatrixCell :=
  FormMatrix (FinalState g c cr initial_threshold schedule req prior)

/-- Modelled from the spec: the stateful view of one query against the
engine object: the prior per-query state is released by `clear`, the
query state is allocated by `Initialize`, the driver runs, and the
matrix is written while the final per-query state remains in the engine
until the next `clear` (spec 3 lifecycles). -/
def SourceToTargetStateful (g : Graph) (c cr : Costing) (initial_threshold : Int)
    (schedule : List Choice) (req : Request) (prior : MatrixState) :
    List MatrixCell × MatrixState :=
  let st0 := Initialize (clear prior) c initial_threshold req
  let fin := driverRun g c cr req.targets.length schedule st0
  (FormMatrix fin, fin)

/-- The components of the engine state that one connection-check step
leaves intact: everything but the best connections, the source's own
status and the stepped target statuses. -/
def CfcFrame (a b : MatrixState) (s : Nat) : Prop :=
  b.sources = a.sources ∧
  b.targets = a.targets ∧
  b.target_map = a.target_map ∧
  b.remaining_sources = a.remaining_sources ∧
  b.remaining_targets = a.remaining_targets ∧
  b.current_cost_threshold = a.current_cost_threshold ∧
  b.best_connection.length = a.best_connection.length ∧
  b.source_status.length = a.source_status.length ∧
  b.target_status.length = a.target_status.length ∧
  (∀ s', s ≠ s' → b.source_status.getD s' default = a.source_status.getD s' default)

/-! ## Concrete fixtures used by the witnesses -/
/-- A small concrete graph: a bidirected pair of edges between nodes 0
and 1 plus one onward edge. -/
def wGraph : Graph :=
  ⟨[⟨1, 2, 0, 1, 5⟩, ⟨2, 1, 1, 0, 5⟩, ⟨3, 4, 1, 2, 7⟩]⟩

/-- A concrete costing: everything allowed, edge cost equal to the arc
length, no transition cost. -/
def wCosting : Costing :=
  ⟨fun _ => true, fun e => ⟨e.dist, e.dist⟩, fun _ _ => ⟨0, 0⟩⟩

/-- A queued label that is too expensive for a threshold of 50. -/
def wLabelExp : Label := ⟨none, 1, 2, 1, ⟨100, 100⟩, 0⟩

/-- A one-label search state holding the expensive label. -/
def wLsExp : LocSearch := ⟨[0], [wLabelExp], [(1, .temporary 0)]⟩

/-- The search state `wLsExp` after its only label is popped. -/
def wLsExpPopped : LocSearch := ⟨[], [wLabelExp], [(1, .temporary 0)]⟩

/-- An engine state whose single source has the expensive label queued
and a cost threshold of 50. -/
def wStExp : MatrixState :=
  ⟨[⟨5, [0]⟩], [⟨5, [0]⟩], [wLsExp], [wLsExp],
    [BestCandidate.make ⟨0⟩ ⟨0⟩ ⟨0, 0⟩ 0], [], 1, 1, 50⟩

/-- An engine state whose single source has threshold 0. -/
def wStZ : MatrixState :=
  ⟨[⟨0, [0]⟩], [⟨5, [0]⟩], [wLsExp], [wLsExp],
    [BestCandidate.make ⟨0⟩ ⟨0⟩ ⟨0, 0⟩ 0], [], 1, 1, 50⟩

/-- A request whose single source has no candidate edges
(InvalidLocation, spec 7). -/
def wReqEmpty : Request := ⟨[[]], [[]], .drive, 56⟩

/-- Boundedness of the target-edge index: every target index recorded
in it belongs to the target range (an invariant of every reachable
engine state, since only guarded backward steps insert). -/
def TmBounded (T : Nat) (st : MatrixState) : Prop :=
  ∀ pr ∈ st.target_map, ∀ q ∈ pr.2, q.1 < T

/-- A concrete engine state in which the pair (0,0) has already met:
target 0 is no longer in source 0's remaining set. -/
def wStMet : MatrixState :=
  ⟨[⟨5, []⟩], [⟨5, [0]⟩], [wLsExp], [wLsExp],
    [BestCandidate.make ⟨0⟩ ⟨0⟩ ⟨3, 3⟩ 0], [], 1, 1, 50⟩

/-- Status of one edge within one per-location search. -/
def statusOf (ls : LocSearch) (e : Nat) : EdgeSt :=
  getStatus ls.edgestatus e

/-- Well-formedness of one per-location search state (the invariant the
spec asserts of every search, spec 3 invariants): the queue holds
distinct label indices of queued labels, an edge is Temporary with
index i exactly when label i is its queued label, and a Permanent edge
is out of the queue with its settled label recorded. -/
structure WF (ls : LocSearch) : Prop where
  nodup : ls.adjacency.Nodup
  adj_lt : ∀ j ∈ ls.adjacency, j < ls.edgelabel.length
  adj_status : ∀ j ∈ ls.adjacency,
    statusOf ls ((ls.edgelabel.getD j default).edgeid) = .temporary j
  temp_spec : ∀ e i, statusOf ls e = .temporary i →
    i ∈ ls.adjacency ∧ (ls.edgelabel.getD i default).edgeid = e
  perm_spec : ∀ e i, statusOf ls e = .permanent i →
    i ∉ ls.adjacency ∧ i < ls.edgelabel.length ∧ (ls.edgelabel.getD i default).edgeid = e

/-- What one relaxation (and hence one expansion) preserves: permanent
marks are untouched in both directions, temporary edges keep their
label index, and existing labels keep their edge. -/
def LsExtends (a b : LocSearch) : Prop :=
  (∀ e i, statusOf a e = .permanent i → statusOf b e = .permanent i) ∧
  (∀ e i, statusOf b e = .permanent i → statusOf a e = .permanent i) ∧
  (∀ e i, statusOf a e = .temporary i → statusOf b e = .temporary i) ∧
  a.edgelabel.length ≤ b.edgelabel.length ∧
  (∀ i, i < a.edgelabel.length →
    (b.edgelabel.getD i default).edgeid = (a.edgelabel.getD i default).edgeid)

/-- A concrete well-formed search state: edge 1 already settled with
label 0, edge 3 queued as Temporary with label 1. -/
def wLsWF2 : LocSearch :=
  ⟨[1], [⟨none, 1, 2, 1, ⟨5, 5⟩, 5⟩, ⟨some 0, 3, 4, 2, ⟨12, 12⟩, 12⟩],
    [(3, .temporary 1), (1, .permanent 0)]⟩

/-! ## Theorems -/
theorem setOriginTimes_eq_map (make : Location → TimeInfo) (origins : List Location) :
    SetOriginTimes make origins = origins.map make := by
  suffices h : ∀ acc : List TimeInfo,
      origins.foldl (fun infos origin => infos ++ [make origin]) acc = acc ++ origins.map make by
    simpa [SetOriginTimes] using h []
  induction origins with
  | nil => intro acc; simp
  | cons o os ih => intro acc; simp [List.foldl_cons, ih]

/-- C9: `BestCandidate::Update` modifies only the `edgeid`, `opp_edgeid`,
`cost` and `distance` fields and leaves `found` and `threshold`
unchanged; a freshly constructed `BestCandidate` has `found = false` and
`threshold = 0` regardless of the constructor's cost and distance
arguments. -/
theorem bestCandidate_update_frame (b : BestCandidate) (e1 e2 : GraphId) (c : Cost) (d : Nat) :
    (b.Update e1 e2 c d).found = b.found ∧
    (b.Update e1 e2 c d).threshold = b.threshold ∧
    (b.Update e1 e2 c d).edgeid = e1 ∧
    (b.Update e1 e2 c d).opp_edgeid = e2 ∧
    (b.Update e1 e2 c d).cost = c ∧
    (b.Update e1 e2 c d).distance = d ∧
    (BestCandidate.make e1 e2 c d).found = false ∧
    (BestCandidate.make e1 e2 c d).threshold = 0 := by
  refine ⟨rfl, rfl, rfl, rfl, rfl, rfl, rfl, rfl⟩

/-- C10: `SetOriginTimes` returns exactly one `TimeInfo` per origin, in
input order: the result's length equals the number of origins and its
i-th element is built from the i-th origin. -/
theorem setOriginTimes_pointwise (make : Location → TimeInfo) (origins : List Location)
    (i : Nat) (h : i < origins.length) :
    (SetOriginTimes make origins).length = origins.length ∧
    (SetOriginTimes make origins).get? i = some (make (origins.get ⟨i, h⟩)) := by
  constructor
  · rw [setOriginTimes_eq_map]; exact List.length_map origins make
  · rw [setOriginTimes_eq_map]
    rw [List.get?_eq_get (by simpa using h)]
    simp [List.get_eq_getElem]

/-- Witness for C10 at a concrete input. -/
theorem setOriginTimes_pointwise_witness :
    (1 < [Location.mk 5, Location.mk 7].length) ∧
    ((SetOriginTimes (fun l => ⟨l.data + 1⟩) [Location.mk 5, Location.mk 7]).length = 2 ∧
      (SetOriginTimes (fun l => ⟨l.data + 1⟩) [Location.mk 5, Location.mk 7]).get? 1 =
        some ⟨8⟩) :=
  ⟨by decide,
    setOriginTimes_pointwise (fun l => ⟨l.data + 1⟩) [Location.mk 5, Location.mk 7] 1
      (by decide)⟩

theorem lookup_filter_ne (es : List (Nat × EdgeSt)) (a e : Nat) (h : e ≠ a) :
    (es.filter (fun p => p.1 != a)).lookup e = es.lookup e := by
  induction es with
  | nil => rfl
  | cons p ps ih =>
    by_cases hp : p.1 = a
    · have : (p.1 != a) = false := by simp [hp]
      simp only [List.filter_cons, this, if_neg, Bool.false_eq_true, ite_false]
      rw [ih]
      have : (e == p.1) = false := by simp [hp, h]
      simp [List.lookup, this]
    · have : (p.1 != a) = true := by simp [hp]
      simp only [List.filter_cons, this, ite_true]
      by_cases he : e = p.1
      · simp [List.lookup, he]
      · have hb : (e == p.1) = false := by simp [he]
        simp [List.lookup, hb, ih]

theorem getStatus_setStatus (es : List (Nat × EdgeSt)) (a e : Nat) (s : EdgeSt) :
    getStatus (setStatus es a s) e = if e = a then s else getStatus es e := by
  by_cases h : e = a
  · simp [getStatus, setStatus, List.lookup, h]
  · have hb : (e == a) = false := by simp [h]
    simp [getStatus, setStatus, List.lookup, hb, h, lookup_filter_ne es a e h]

/-! ## List helpers -/
theorem getD_set_ne {α : Type} [Inhabited α] (l : List α) (i j : Nat) (a d : α) (h : i ≠ j) :
    (l.set i a).getD j d = l.getD j d := by
  simp [List.getD, List.getElem?_set_ne h]

theorem getD_set_self {α : Type} [Inhabited α] (l : List α) (i : Nat) (a d : α)
    (h : i < l.length) :
    (l.set i a).getD i d = a := by
  simp [List.getD, List.getElem?_set_eq_of_lt a h]

theorem setAt_length {α : Type} [Inhabited α] (l : List α) (i : Nat) (f : α → α) :
    (setAt l i f).length = l.length := by
  simp [setAt]

theorem setAt_getD_ne {α : Type} [Inhabited α] (l : List α) (i j : Nat) (f : α → α)
    (h : i ≠ j) :
    (setAt l i f).getD j default = l.getD j default :=
  getD_set_ne _ _ _ _ _ h

theorem setAt_getD_self {α : Type} [Inhabited α] (l : List α) (i : Nat) (f : α → α) :
    (setAt l i f).getD i default =
      if i < l.length then f (l.getD i default) else l.getD i default := by
  by_cases h : i < l.length
  · simp only [setAt, if_pos h]
    exact getD_set_self _ _ _ _ h
  · simp only [setAt, if_neg h]
    rw [List.set_eq_of_length_le (Nat.le_of_not_lt h)]

/-! ## Frame lemmas for the engine steps -/
theorem updateStatus_frame (s t : Nat) (st : MatrixState) :
    (UpdateStatus s t st).sources = st.sources ∧
    (UpdateStatus s t st).targets = st.targets ∧
    (UpdateStatus s t st).best_connection = st.best_connection ∧
    (UpdateStatus s t st).target_map = st.target_map ∧
    (UpdateStatus s t st).remaining_sources = st.remaining_sources ∧
    (UpdateStatus s t st).remaining_targets = st.remaining_targets ∧
    (UpdateStatus s t st).current_cost_threshold = st.current_cost_threshold ∧
    (UpdateStatus s t st).source_status.length = st.source_status.length ∧
    (UpdateStatus s t st).target_status.length = st.target_status.length := by
  refine ⟨rfl, rfl, rfl, rfl, rfl, rfl, rfl, ?_, ?_⟩ <;>
    simp [UpdateStatus, setAt_length]

theorem updateStatus_source_status_ne (s t s' : Nat) (st : MatrixState) (h : s ≠ s') :
    (UpdateStatus s t st).source_status.getD s' default =
      st.source_status.getD s' default := by
  simp only [UpdateStatus]
  exact setAt_getD_ne _ _ _ _ h

theorem not_mem_filter_ne {x : Nat} {l : List Nat} (p : Nat → Bool) (h : x ∉ l) :
    x ∉ l.filter p :=
  fun hx => h (List.mem_of_mem_filter hx)

theorem updateStatus_not_remaining (s t x : Nat) (st : MatrixState)
    (h : x ∉ (st.source_status.getD s default).remaining_locations) :
    x ∉ ((UpdateStatus s t st).source_status.getD s default).remaining_locations := by
  simp only [UpdateStatus]
  rw [setAt_getD_self]
  by_cases hs : s < st.source_status.length
  · rw [if_pos hs]
    exact not_mem_filter_ne _ h
  · rw [if_neg hs]
    exact h

theorem cfcFrame_refl (a : MatrixState) (s : Nat) : CfcFrame a a s :=
  ⟨rfl, rfl, rfl, rfl, rfl, rfl, rfl, rfl, rfl, fun _ _ => rfl⟩

theorem cfcFrame_trans {a b c : MatrixState} {s : Nat}
    (h1 : CfcFrame a b s) (h2 : CfcFrame b c s) : CfcFrame a c s := by
  obtain ⟨e1, e2, e3, e4, e5, e6, e7, e8, e9, e10⟩ := h1
  obtain ⟨f1, f2, f3, f4, f5, f6, f7, f8, f9, f10⟩ := h2
  exact ⟨f1.trans e1, f2.trans e2, f3.trans e3, f4.trans e4, f5.trans e5, f6.trans e6,
    f7.trans e7, f8.trans e8, f9.trans e9, fun s' h => (f10 s' h).trans (e10 s' h)⟩

theorem cfcStep_frame (T s : Nat) (pred : Label) (acc : MatrixState × Bool)
    (hit : Nat × Nat) :
    CfcFrame acc.1 (cfcStep T s pred acc hit).1 s := by
  simp only [cfcStep]
  split
  · refine ⟨rfl, rfl, rfl, rfl, rfl, rfl, ?_, ?_, ?_, ?_⟩
    · simp [UpdateStatus, List.length_set]
    · simp [UpdateStatus, setAt_length]
    · simp [UpdateStatus, setAt_length]
    · intro s' h
      simp only [UpdateStatus]
      exact setAt_getD_ne _ _ _ _ h
  · split
    · exact ⟨rfl, rfl, rfl, rfl, rfl, rfl, by simp [List.length_set], rfl, rfl,
        fun _ _ => rfl⟩
    · exact cfcFrame_refl _ _

theorem cfc_foldl_frame (T s : Nat) (pred : Label) (hits : List (Nat × Nat))
    (acc : MatrixState × Bool) :
    CfcFrame acc.1 (hits.foldl (cfcStep T s pred) acc).1 s := by
  induction hits generalizing acc with
  | nil => exact cfcFrame_refl _ _
  | cons h hs ih =>
    rw [List.foldl_cons]
    exact cfcFrame_trans (cfcStep_frame T s pred acc h) (ih (cfcStep T s pred acc h))

theorem checkForwardConnections_frame (T s : Nat) (pred : Label) (st : MatrixState) :
    CfcFrame st (CheckForwardConnections T s pred st).1 s :=
  cfc_foldl_frame T s pred _ (st, false)

theorem terminateSource_frame (s : Nat) (st : MatrixState) :
    (terminateSource s st).sources = st.sources ∧
    (terminateSource s st).targets = st.targets ∧
    (terminateSource s st).best_connection = st.best_connection ∧
    (terminateSource s st).target_map = st.target_map ∧
    (terminateSource s st).target_status = st.target_status ∧
    (terminateSource s st).current_cost_threshold = st.current_cost_threshold ∧
    (terminateSource s st).source_status.length = st.source_status.length ∧
    (∀ s', s ≠ s' →
      (terminateSource s st).source_status.getD s' default =
        st.source_status.getD s' default) := by
  refine ⟨rfl, rfl, rfl, rfl, rfl, rfl, ?_, ?_⟩
  · simp [terminateSource, setAt_length]
  · intro s' h
    simp only [terminateSource]
    exact setAt_getD_ne _ _ _ _ h

theorem terminateTarget_frame (t : Nat) (st : MatrixState) :
    (terminateTarget t st).sources = st.sources ∧
    (terminateTarget t st).targets = st.targets ∧
    (terminateTarget t st).best_connection = st.best_connection ∧
    (terminateTarget t st).target_map = st.target_map ∧
    (terminateTarget t st).source_status = st.source_status ∧
    (terminateTarget t st).remaining_sources = st.remaining_sources ∧
    (terminateTarget t st).current_cost_threshold = st.current_cost_threshold ∧
    (terminateTarget t st).target_status.length = st.target_status.length := by
  refine ⟨rfl, rfl, rfl, rfl, rfl, rfl, rfl, ?_⟩
  simp [terminateTarget, setAt_length]

theorem forwardSettle_frame (g : Graph) (c : Costing) (T s i : Nat) (p : Label)
    (ls2 : LocSearch) (st : MatrixState) :
    (forwardSettle g c T s i p ls2 st).targets = st.targets ∧
    (forwardSettle g c T s i p ls2 st).target_map = st.target_map ∧
    (forwardSettle g c T s i p ls2 st).current_cost_threshold = st.current_cost_threshold ∧
    (forwardSettle g c T s i p ls2 st).best_connection.length = st.best_connection.length ∧
    (forwardSettle g c T s i p ls2 st).source_status.length = st.source_status.length ∧
    (forwardSettle g c T s i p ls2 st).target_status.length = st.target_status.length ∧
    (∀ s', s ≠ s' →
      (forwardSettle g c T s i p ls2 st).sources.getD s' default =
        st.sources.getD s' default ∧
      (forwardSettle g c T s i p ls2 st).source_status.getD s' default =
        st.source_status.getD s' default) := by
  obtain ⟨f1, f2, f3, f4, f5, f6, f7, f8, f9, f10⟩ :=
    checkForwardConnections_frame T s p { st with sources := st.sources.set s ls2 }
  refine ⟨?_, ?_, ?_, ?_, ?_, ?_, ?_⟩
  · simp only [forwardSettle]
    split
    · exact f2
    · exact f2
  · simp only [forwardSettle]
    split
    · exact f3
    · exact f3
  · simp only [forwardSettle]
    split
    · exact f6
    · exact f6
  · simp only [forwardSettle]
    split
    · exact f7
    · exact f7
  · simp only [forwardSettle]
    split
    · rw [setAt_length]
      exact f8
    · exact f8
  · simp only [forwardSettle]
    split
    · exact f9
    · exact f9
  · intro s' hne
    constructor
    · simp only [forwardSettle]
      split
      · rw [getD_set_ne _ _ _ _ _ hne, f1]
        exact getD_set_ne _ _ _ _ _ hne
      · rw [getD_set_ne _ _ _ _ _ hne, f1]
        exact getD_set_ne _ _ _ _ _ hne
    · simp only [forwardSettle]
      split
      · rw [setAt_getD_ne _ _ _ _ hne]
        exact f10 s' hne
      · exact f10 s' hne

theorem forwardSearch_frame (g : Graph) (c : Costing) (T s : Nat) (st : MatrixState) :
    (ForwardSearch g c T s st).targets = st.targets ∧
    (ForwardSearch g c T s st).target_map = st.target_map ∧
    (ForwardSearch g c T s st).current_cost_threshold = st.current_cost_threshold ∧
    (ForwardSearch g c T s st).best_connection.length = st.best_connection.length ∧
    (ForwardSearch g c T s st).source_status.length = st.source_status.length ∧
    (ForwardSearch g c T s st).target_status.length = st.target_status.length ∧
    (∀ s', s ≠ s' →
      (ForwardSearch g c T s st).sources.getD s' default = st.sources.getD s' default ∧
      (ForwardSearch g c T s st).source_status.getD s' default =
        st.source_status.getD s' default) := by
  simp only [ForwardSearch]
  split
  · obtain ⟨h1, h2, h3, h4, h5, h6, h7, h8⟩ := terminateSource_frame s st
    exact ⟨h2, h4, h6, by rw [h3], h7, by rw [h5], fun s' hne =>
      ⟨by rw [h1], h8 s' hne⟩⟩
  · obtain ⟨h1, h2, h3, h4, h5, h6, h7, h8⟩ :=
      terminateSource_frame s { st with sources := st.sources.set s _ }
    exact ⟨h2, h4, h6, by rw [h3], h7, by rw [h5], fun s' hne =>
      ⟨by rw [h1]; exact getD_set_ne _ _ _ _ _ hne, h8 s' hne⟩⟩
  · rename_i i p ls2 _heq
    exact forwardSettle_frame g c T s i p ls2 st

theorem backwardSearch_frame (g : Graph) (cr : Costing) (t : Nat) (st : MatrixState) :
    (BackwardSearch g cr t st).best_connection = st.best_connection ∧
    (BackwardSearch g cr t st).sources = st.sources ∧
    (BackwardSearch g cr t st).source_status = st.source_status ∧
    (BackwardSearch g cr t st).remaining_sources = st.remaining_sources ∧
    (BackwardSearch g cr t st).current_cost_threshold = st.current_cost_threshold ∧
    (BackwardSearch g cr t st).best_connection.length = st.best_connection.length ∧
    (BackwardSearch g cr t st).source_status.length = st.source_status.length ∧
    (BackwardSearch g cr t st).target_status.length = st.target_status.length := by
  simp only [BackwardSearch]
  split
  · obtain ⟨t1, t2, t3, t4, t5, t6, t7, t8⟩ := terminateTarget_frame t st
    exact ⟨t3, t1, t5, t6, t7, by rw [t3], by rw [t5], t8⟩
  · obtain ⟨t1, t2, t3, t4, t5, t6, t7, t8⟩ :=
      terminateTarget_frame t { st with targets := st.targets.set t _ }
    exact ⟨t3, t1, t5, t6, t7, by rw [t3], by rw [t5], t8⟩
  · exact ⟨rfl, rfl, rfl, rfl, rfl, rfl, rfl, by simp [List.length_set]⟩

theorem forwardDriverStep_zero (g : Graph) (c : Costing) (T s : Nat) (st : MatrixState)
    (h : (st.source_status.getD s default).threshold = 0) :
    forwardDriverStep g c T s st = st := by
  simp only [forwardDriverStep, h]
  simp

theorem driverStep_frozen (g : Graph) (c cr : Costing) (T s : Nat) (ch : Choice)
    (st : MatrixState) (h : (st.source_status.getD s default).threshold = 0) :
    (driverStep g c cr T ch st).sources.getD s default = st.sources.getD s default ∧
    (driverStep g c cr T ch st).source_status.getD s default =
      st.source_status.getD s default := by
  match ch with
  | .fwd s' =>
    simp only [driverStep]
    by_cases hs : s' = s
    · subst hs
      rw [forwardDriverStep_zero g c T s' st h]
      exact ⟨rfl, rfl⟩
    · simp only [forwardDriverStep]
      split
      · exact (forwardSearch_frame g c T s' st).2.2.2.2.2.2 s hs
      · exact ⟨rfl, rfl⟩
  | .bwd t =>
    simp only [driverStep, backwardDriverStep]
    split
    · obtain ⟨_, b2, b3, _, _, _, _, _⟩ := backwardSearch_frame g cr t st
      exact ⟨by rw [b2], by rw [b3]⟩
    · exact ⟨rfl, rfl⟩

theorem foldl_pick_mem (ls : LocSearch) (l : List Nat) (acc : Option Nat) (i : Nat)
    (h : l.foldl
      (fun acc j =>
        match acc with
        | none => some j
        | some k => if keyLt (labelKey ls j) (labelKey ls k) then some j else some k)
      acc = some i) :
    acc = some i ∨ i ∈ l := by
  induction l generalizing acc with
  | nil => exact Or.inl h
  | cons j l ih =>
    rw [List.foldl_cons] at h
    rcases ih _ h with hacc | hmem
    · cases acc with
      | none =>
        have hacc' : some j = some i := hacc
        right
        exact (Option.some.inj hacc') ▸ List.mem_cons_self j l
      | some k =>
        have hacc' :
            (if keyLt (labelKey ls j) (labelKey ls k) then some j else some k) = some i := hacc
        by_cases hk : keyLt (labelKey ls j) (labelKey ls k) = true
        · rw [if_pos hk] at hacc'
          right
          exact (Option.some.inj hacc') ▸ List.mem_cons_self j l
        · rw [if_neg hk] at hacc'
          left
          exact hacc'
    · right
      exact List.mem_cons_of_mem j hmem

theorem pickMin_mem (ls : LocSearch) (i : Nat) (h : pickMin ls = some i) :
    i ∈ ls.adjacency := by
  rcases foldl_pick_mem ls ls.adjacency none i h with hacc | hmem
  · exact absurd hacc (by simp)
  · exact hmem

theorem popMin_spec (ls : LocSearch) (i : Nat) (ls1 : LocSearch)
    (h : popMin ls = some (i, ls1)) :
    ls1.edgelabel = ls.edgelabel ∧ ls1.edgestatus = ls.edgestatus ∧
    ls1.adjacency = ls.adjacency.erase i ∧ i ∈ ls.adjacency := by
  unfold popMin at h
  cases hp : pickMin ls with
  | none => rw [hp] at h; exact absurd h (by simp)
  | some j =>
    rw [hp] at h
    have hji := Option.some.inj h
    have hj : j = i := congrArg Prod.fst hji
    have hls : ls1 = { ls with adjacency := ls.adjacency.erase j } :=
      (congrArg Prod.snd hji).symm
    subst hj
    exact ⟨by rw [hls], by rw [hls], by rw [hls], pickMin_mem ls j hp⟩

theorem driverRun_frozen (g : Graph) (c cr : Costing) (T s : Nat) (cs : List Choice) :
    ∀ st : MatrixState, (st.source_status.getD s default).threshold = 0 →
      (driverRun g c cr T cs st).sources.getD s default = st.sources.getD s default ∧
      (driverRun g c cr T cs st).source_status.getD s default =
        st.source_status.getD s default := by
  induction cs with
  | nil => intro st _; exact ⟨rfl, rfl⟩
  | cons ch cs ih =>
    intro st h
    have hstep := driverStep_frozen g c cr T s ch st h
    have hthr : ((driverStep g c cr T ch st).source_status.getD s default).threshold = 0 := by
      rw [hstep.2]
      exact h
    have hrun := ih (driverStep g c cr T ch st) hthr
    have hcons : driverRun g c cr T (ch :: cs) st =
        driverRun g c cr T cs (driverStep g c cr T ch st) := by
      simp [driverRun]
    rw [hcons]
    exact ⟨hrun.1.trans hstep.1, hrun.2.trans hstep.2⟩

/-- C2: the cost ceiling used to prune queue pops equals
`max_matrix_distance` divided by the mode-specific divisor (auto: 56,
bicycle: 56, pedestrian: 28) — `Initialize` installs exactly
`GetCostThreshold` of the request — and a label popped from any
per-location queue, a source's forward queue or a target's reverse
queue, whose cost exceeds `current_cost_threshold_` is discarded
rather than expanded: nothing is settled, no label is added, no
connection is updated and no target-map entry is inserted (either
search is terminated, as the comment above the divisor constants in
costmatrix.h states: "If either forward or reverse costs exceed the
threshold the search is terminated"). -/
theorem c2_costThreshold (d : Rat) (st0 : MatrixState) (cc : Costing) (ith : Int)
    (req : Request) (g : Graph) (c cr : Costing) (T s i t j : Nat)
    (ls1 lt1 : LocSearch) (st : MatrixState)
    (hpop : popMin (st.sources.getD s default) = some (i, ls1))
    (hcost : st.current_cost_threshold < (ls1.edgelabel.getD i default).cost.cost)
    (hs : s < st.sources.length) (hss : s < st.source_status.length)
    (hpopB : popMin (st.targets.getD t default) = some (j, lt1))
    (hcostB : st.current_cost_threshold < (lt1.edgelabel.getD j default).cost.cost)
    (htl : t < st.targets.length) (htsl : t < st.target_status.length) :
    GetCostThreshold TravelMode.drive d = d / 56 ∧
    GetCostThreshold TravelMode.bicycle d = d / 56 ∧
    GetCostThreshold TravelMode.pedestrian d = d / 28 ∧
    (Initialize st0 cc ith req).current_cost_threshold =
      GetCostThreshold req.mode req.max_matrix_distance ∧
    (ForwardSearch g c T s st).best_connection = st.best_connection ∧
    ((ForwardSearch g c T s st).sources.getD s default).edgestatus =
      (st.sources.getD s default).edgestatus ∧
    ((ForwardSearch g c T s st).sources.getD s default).edgelabel =
      (st.sources.getD s default).edgelabel ∧
    ((ForwardSearch g c T s st).source_status.getD s default).threshold = 0 ∧
    (BackwardSearch g cr t st).best_connection = st.best_connection ∧
    (BackwardSearch g cr t st).target_map = st.target_map ∧
    ((BackwardSearch g cr t st).targets.getD t default).edgestatus =
      (st.targets.getD t default).edgestatus ∧
    ((BackwardSearch g cr t st).targets.getD t default).edgelabel =
      (st.targets.getD t default).edgelabel ∧
    ((BackwardSearch g cr t st).target_status.getD t default).threshold = 0 := by
  have hps : popAndSettle st.current_cost_threshold (st.sources.getD s default) =
      .pruned i ls1 := by
    simp only [popAndSettle, hpop]
    rw [if_pos hcost]
  have hfs : ForwardSearch g c T s st =
      terminateSource s { st with sources := st.sources.set s ls1 } := by
    simp only [ForwardSearch, hps]
  have hpsB : popAndSettle st.current_cost_threshold (st.targets.getD t default) =
      .pruned j lt1 := by
    simp only [popAndSettle, hpopB]
    rw [if_pos hcostB]
  have hbs : BackwardSearch g cr t st =
      terminateTarget t { st with targets := st.targets.set t lt1 } := by
    simp only [BackwardSearch, hpsB]
  obtain ⟨p1, p2, _p3, _p4⟩ := popMin_spec _ _ _ hpop
  obtain ⟨q1, q2, _q3, _q4⟩ := popMin_spec _ _ _ hpopB
  refine ⟨rfl, rfl, rfl, rfl, ?_, ?_, ?_, ?_, ?_, ?_, ?_, ?_, ?_⟩
  · rw [hfs]
    rfl
  · rw [hfs]
    show ((st.sources.set s ls1).getD s default).edgestatus = _
    rw [getD_set_self _ _ _ _ hs, p2]
  · rw [hfs]
    show ((st.sources.set s ls1).getD s default).edgelabel = _
    rw [getD_set_self _ _ _ _ hs, p1]
  · rw [hfs]
    show ((setAt { st with sources := st.sources.set s ls1 }.source_status s
      (fun ss => { ss with threshold := 0 })).getD s default).threshold = (0 : Int)
    rw [setAt_getD_self, if_pos]
    exact hss
  · rw [hbs]
    rfl
  · rw [hbs]
    rfl
  · rw [hbs]
    show ((st.targets.set t lt1).getD t default).edgestatus = _
    rw [getD_set_self _ _ _ _ htl, q2]
  · rw [hbs]
    show ((st.targets.set t lt1).getD t default).edgelabel = _
    rw [getD_set_self _ _ _ _ htl, q1]
  · rw [hbs]
    show ((setAt { st with targets := st.targets.set t lt1 }.target_status t
      (fun ts => { ts with threshold := 0 })).getD t default).threshold = (0 : Int)
    rw [setAt_getD_self, if_pos]
    exact htsl

/-- Witness for C2 at a concrete input: both the source's and the
target's queued labels cost 100 against a threshold of 50; each pop
discards its label and terminates its own search. -/
theorem c2_costThreshold_witness :
    popMin (wStExp.sources.getD 0 default) = some (0, wLsExpPopped) ∧
    popMin (wStExp.targets.getD 0 default) = some (0, wLsExpPopped) ∧
    wStExp.current_cost_threshold < ((wLsExpPopped).edgelabel.getD 0 default).cost.cost ∧
    ((ForwardSearch wGraph wCosting 1 0 wStExp).sources.getD 0 default).edgelabel =
      (wStExp.sources.getD 0 default).edgelabel ∧
    ((ForwardSearch wGraph wCosting 1 0 wStExp).source_status.getD 0 default).threshold
      = 0 ∧
    ((BackwardSearch wGraph wCosting 0 wStExp).targets.getD 0 default).edgelabel =
      (wStExp.targets.getD 0 default).edgelabel ∧
    ((BackwardSearch wGraph wCosting 0 wStExp).target_status.getD 0 default).threshold
      = 0 := by
  have h := c2_costThreshold 0 wStExp wCosting 0 ⟨[], [], .drive, 0⟩ wGraph wCosting
    wCosting 1 0 0 0 0 wLsExpPopped wLsExpPopped wStExp (by decide) (by decide)
    (by decide) (by decide) (by decide) (by decide) (by decide) (by decide)
  exact ⟨by decide, by decide, by decide, h.2.2.2.2.2.2.1, h.2.2.2.2.2.2.2.1,
    h.2.2.2.2.2.2.2.2.2.2.2.1, h.2.2.2.2.2.2.2.2.2.2.2.2⟩

/-- C3: backward (reverse) search steps never check for or update best
connections: a backward step (guarded or not) leaves `best_connection_`
— and the source statuses in which forward meetings are recorded —
completely unchanged; connection detection runs only on forward
settles. -/
theorem c3_backward_noConnectionCheck (g : Graph) (cr : Costing) (t : Nat)
    (st : MatrixState) :
    (BackwardSearch g cr t st).best_connection = st.best_connection ∧
    (backwardDriverStep g cr t st).best_connection = st.best_connection ∧
    (BackwardSearch g cr t st).source_status = st.source_status ∧
    (BackwardSearch g cr t st).remaining_sources = st.remaining_sources := by
  obtain ⟨b1, _, b3, b4, _, _, _, _⟩ := backwardSearch_frame g cr t st
  refine ⟨b1, ?_, b3, b4⟩
  simp only [backwardDriverStep]
  split
  · exact b1
  · rfl

/-- C6: once `source_status_[s].threshold` has reached 0, the forward
search for s performs no further work: its guarded driver step is the
identity (no pop, no settle, no connection update), and along any
further driver schedule the source's search state and status never
change. -/
theorem c6_thresholdZero_noWork (g : Graph) (c cr : Costing) (T s : Nat)
    (st : MatrixState) (h : (st.source_status.getD s default).threshold = 0) :
    forwardDriverStep g c T s st = st ∧
    ∀ cs : List Choice,
      (driverRun g c cr T cs st).sources.getD s default = st.sources.getD s default ∧
      (driverRun g c cr T cs st).source_status.getD s default =
        st.source_status.getD s default :=
  ⟨forwardDriverStep_zero g c T s st h, fun cs => driverRun_frozen g c cr T s cs st h⟩

/-- Witness for C6 at a concrete input. -/
theorem c6_thresholdZero_noWork_witness :
    (wStZ.source_status.getD 0 default).threshold = 0 ∧
    forwardDriverStep wGraph wCosting 1 0 wStZ = wStZ ∧
    (driverRun wGraph wCosting wCosting 1 [Choice.bwd 0, Choice.fwd 0] wStZ).sources.getD 0
      default = wStZ.sources.getD 0 default :=
  ⟨by decide, (c6_thresholdZero_noWork wGraph wCosting wCosting 1 0 wStZ (by decide)).1,
    ((c6_thresholdZero_noWork wGraph wCosting wCosting 1 0 wStZ (by decide)).2
      [Choice.bwd 0, Choice.fwd 0]).1⟩

theorem driverStep_best_length (g : Graph) (c cr : Costing) (T : Nat) (ch : Choice)
    (st : MatrixState) :
    (driverStep g c cr T ch st).best_connection.length = st.best_connection.length := by
  match ch with
  | .fwd s =>
    simp only [driverStep, forwardDriverStep]
    split
    · exact (forwardSearch_frame g c T s st).2.2.2.1
    · rfl
  | .bwd t =>
    simp only [driverStep, backwardDriverStep]
    split
    · exact (backwardSearch_frame g cr t st).2.2.2.2.2.1
    · rfl

theorem driverRun_best_length (g : Graph) (c cr : Costing) (T : Nat) (cs : List Choice) :
    ∀ st : MatrixState,
      (driverRun g c cr T cs st).best_connection.length = st.best_connection.length := by
  induction cs with
  | nil => intro st; rfl
  | cons ch cs ih =>
    intro st
    have hcons : driverRun g c cr T (ch :: cs) st =
        driverRun g c cr T cs (driverStep g c cr T ch st) := by
      simp [driverRun]
    rw [hcons, ih, driverStep_best_length]

theorem initialize_best_length (st0 : MatrixState) (c : Costing) (ith : Int) (req : Request) :
    (Initialize st0 c ith req).best_connection.length =
      req.sources.length * req.targets.length := by
  simp [Initialize]

theorem finalState_best_length (g : Graph) (c cr : Costing) (ith : Int)
    (schedule : List Choice) (req : Request) (prior : MatrixState) :
    (FinalState g c cr ith schedule req prior).best_connection.length =
      req.sources.length * req.targets.length := by
  rw [FinalState, driverRun_best_length, initialize_best_length]

theorem formMatrixCell_notFound (b : BestCandidate) (h : b.found = false) :
    FormMatrixCell b = notFoundCell := by
  simp [FormMatrixCell, h]

theorem getD_map_range {α : Type} [Inhabited α] (S s : Nat) (f : Nat → α) (h : s < S) :
    (((List.range S).map f).getD s default) = f s := by
  rw [List.getD_eq_getElem _ _ (by simpa using h)]
  simp

/-- C8: running the same query twice on the same read-only graph yields
identical result matrices: `clear` releases every per-query field and
`Initialize` repopulates each of them, so the matrix is independent of
the engine state left behind by any prior query — in particular a
second run of the same query, started from the state the first run left
in the engine, returns the same matrix. -/
theorem c8_rerun_identical (g : Graph) (c cr : Costing) (ith : Int)
    (schedule : List Choice) (req : Request) (p1 p2 : MatrixState) :
    (SourceToTargetStateful g c cr ith schedule req p1).1 =
      (SourceToTargetStateful g c cr ith schedule req p2).1 ∧
    (SourceToTargetStateful g c cr ith schedule req
        (SourceToTargetStateful g c cr ith schedule req p1).2).1 =
      (SourceToTargetStateful g c cr ith schedule req p1).1 ∧
    clear p1 = clear p2 ∧
    (clear p1).best_connection = [] ∧
    (clear p1).sources = [] ∧
    (clear p1).targets = [] ∧
    (clear p1).target_map = [] :=
  ⟨rfl, rfl, rfl, rfl, rfl, rfl, rfl⟩

/-- C5: every recoverable condition produces a not-found matrix cell
with cost = 0, distance = 0 and found = false, and none of them escapes
the public API: `SourceToTarget` is total and returns one cell per
(source, target) pair on every request; any pair whose connection was
not found by the end of the run — no path within the thresholds,
thresholds exhausted, or a source with no candidate edges, which starts
terminated with threshold 0 — yields exactly the conventional cell. -/
theorem c5_recoverable_notFound (g : Graph) (c cr : Costing) (ith : Int)
    (schedule : List Choice) (req : Request) (prior : MatrixState) (idx s : Nat)
    (hidx : idx < req.sources.length * req.targets.length)
    (hnf : ((FinalState g c cr ith schedule req prior).best_connection.getD idx
      default).found = false)
    (hs : s < req.sources.length)
    (hempty : (req.sources.getD s []).isEmpty = true) :
    (SourceToTarget g c cr ith schedule req prior).length =
      req.sources.length * req.targets.length ∧
    (SourceToTarget g c cr ith schedule req prior).get? idx = some notFoundCell ∧
    notFoundCell.cost.cost = 0 ∧ notFoundCell.distance = 0 ∧ notFoundCell.found = false ∧
    ((Initialize (clear prior) c ith req).source_status.getD s default).threshold = 0 := by
  have hlen := finalState_best_length g c cr ith schedule req prior
  refine ⟨?_, ?_, rfl, rfl, rfl, ?_⟩
  · show (FormMatrix _).length = _
    rw [FormMatrix, List.length_map, hlen]
  · show (FormMatrix _).get? idx = _
    rw [FormMatrix, List.get?_map]
    have hidx' : idx < (FinalState g c cr ith schedule req prior).best_connection.length := by
      rw [hlen]
      exact hidx
    rw [List.get?_eq_get hidx']
    have hgetD := List.getD_eq_getElem
      (FinalState g c cr ith schedule req prior).best_connection default hidx'
    simp only [List.get_eq_getElem, Option.map_some]
    rw [← hgetD]
    show some (FormMatrixCell _) = some notFoundCell
    rw [formMatrixCell_notFound _ hnf]
  · simp only [Initialize]
    rw [getD_map_range _ _ _ hs]
    show (if (req.sources.getD s []).isEmpty = true then (0 : Int) else ith) = 0
    rw [hempty]
    simp

/-- Witness for C5 at a concrete input: a 1-by-1 request whose source
has no candidate edges, run with an empty schedule. -/
theorem c5_recoverable_notFound_witness :
    (((FinalState wGraph wCosting wCosting 0 [] wReqEmpty wStZ).best_connection.getD 0
      default).found = false) ∧
    (SourceToTarget wGraph wCosting wCosting 0 [] wReqEmpty wStZ).get? 0 =
      some notFoundCell ∧
    ((Initialize (clear wStZ) wCosting 0 wReqEmpty).source_status.getD 0 default).threshold
      = 0 :=
  ⟨by decide,
    (c5_recoverable_notFound wGraph wCosting wCosting 0 [] wReqEmpty wStZ 0 0
      (by decide) (by decide) (by decide) (by decide)).2.1,
    (c5_recoverable_notFound wGraph wCosting wCosting 0 [] wReqEmpty wStZ 0 0
      (by decide) (by decide) (by decide) (by decide)).2.2.2.2.2⟩

theorem lookup_mem {α : Type} [BEq α] [LawfulBEq α] {β : Type} (l : List (α × β)) (a : α)
    (b : β) (h : l.lookup a = some b) : (a, b) ∈ l := by
  induction l with
  | nil => exact absurd h (by simp [List.lookup])
  | cons p ps ih =>
    obtain ⟨k, v⟩ := p
    by_cases hk : a = k
    · have hbeq : (a == k) = true := by simp [hk]
      have hv : some v = some b := by
        rw [← h]
        simp [List.lookup, hbeq]
      subst hk
      exact (Option.some.inj hv) ▸ List.mem_cons_self (a, v) ps
    · have hbeq : (a == k) = false := by simp [hk]
      have hh : List.lookup a ps = some b := by
        rw [← h]
        simp [List.lookup, hbeq]
      exact List.mem_cons_of_mem _ (ih hh)

theorem getTargets_bounded (T : Nat) (st : MatrixState) (htm : TmBounded T st) (e : Nat) :
    ∀ q ∈ getTargets st.target_map e, q.1 < T := by
  intro q hq
  unfold getTargets at hq
  cases hl : st.target_map.lookup e with
  | none => rw [hl] at hq; exact absurd hq (by simp)
  | some l =>
    rw [hl] at hq
    exact htm (e, l) (lookup_mem _ _ _ hl) q (by simpa using hq)

theorem tmInsert_bounded (T : Nat) (st : MatrixState) (htm : TmBounded T st)
    (e t li : Nat) (ht : t < T) :
    ∀ pr ∈ tmInsert st.target_map e t li [], ∀ q ∈ pr.2, q.1 < T := by
  intro pr hpr q hq
  unfold tmInsert at hpr
  rcases List.mem_cons.mp hpr with hhead | htail
  · subst hhead
    rcases List.mem_append.mp hq with hold | hnew
    · exact getTargets_bounded T st htm e q hold
    · have : q = (t, li) := by simpa using hnew
      rw [this]
      exact ht
  · exact htm pr (List.mem_of_mem_filter htail) q hq

theorem pair_index_inj (T s₀ t' s t : Nat) (ht' : t' < T) (ht : t < T)
    (h : s₀ * T + t' = s * T + t) : s₀ = s ∧ t' = t := by
  have hmod : t' = t := by
    have h1 : (T * s₀ + t') % T = t' % T := Nat.mul_add_mod T s₀ t'
    have h2 : (T * s + t) % T = t % T := Nat.mul_add_mod T s t
    have h' : T * s₀ + t' = T * s + t := by
      rw [Nat.mul_comm T s₀, Nat.mul_comm T s]
      exact h
    rw [h'] at h1
    rw [Nat.mod_eq_of_lt ht', Nat.mod_eq_of_lt ht] at *
    omega
  subst hmod
  have hT : 0 < T := Nat.lt_of_le_of_lt (Nat.zero_le _) ht
  have : s₀ * T = s * T := by omega
  exact ⟨Nat.eq_of_mul_eq_mul_right hT this, rfl⟩

theorem terminateSource_remaining (s₀ s : Nat) (st : MatrixState) :
    ((terminateSource s₀ st).source_status.getD s default).remaining_locations =
      (st.source_status.getD s default).remaining_locations := by
  by_cases h : s₀ = s
  · subst h
    simp only [terminateSource]
    rw [setAt_getD_self]
    split
    · rfl
    · rfl
  · simp only [terminateSource]
    rw [setAt_getD_ne _ _ _ _ h]

theorem decay_remaining (s₀ s : Nat) (l : List LocationStatus) :
    ((setAt l s₀ (fun ss => { ss with threshold := ss.threshold - 1 })).getD s
      default).remaining_locations = (l.getD s default).remaining_locations := by
  by_cases h : s₀ = s
  · subst h
    rw [setAt_getD_self]
    split
    · rfl
    · rfl
  · rw [setAt_getD_ne _ _ _ _ h]

theorem cfcStep_monotone (T s₀ s t : Nat) (pred : Label) (acc : MatrixState × Bool)
    (hit : Nat × Nat) (ht : t < T) (hhit : hit.1 < T)
    (hmet : t ∉ (acc.1.source_status.getD s default).remaining_locations) :
    ((cfcStep T s₀ pred acc hit).1.best_connection.getD (s * T + t) default).cost.cost ≤
      (acc.1.best_connection.getD (s * T + t) default).cost.cost ∧
    t ∉ ((cfcStep T s₀ pred acc hit).1.source_status.getD s default).remaining_locations := by
  simp only [cfcStep]
  split
  case isTrue hin =>
    have hne : s₀ * T + hit.1 ≠ s * T + t := by
      intro heq
      obtain ⟨hss, htt⟩ := pair_index_inj T s₀ hit.1 s t hhit ht heq
      rw [htt, hss] at hin
      exact hmet hin
    constructor
    · simp only [UpdateStatus]
      rw [getD_set_ne _ _ _ _ _ hne]
    · by_cases hs : s₀ = s
      · subst hs
        exact updateStatus_not_remaining s₀ hit.1 t _ hmet
      · rw [updateStatus_source_status_ne s₀ hit.1 s _ hs]
        exact hmet
  case isFalse hout =>
    split
    case isTrue hlt =>
      refine ⟨?_, hmet⟩
      by_cases heq : s₀ * T + hit.1 = s * T + t
      · rw [heq] at hlt ⊢
        by_cases hlen : s * T + t < acc.1.best_connection.length
        · rw [getD_set_self _ _ _ _ hlen]
          exact le_of_lt hlt
        · rw [List.set_eq_of_length_le (Nat.le_of_not_lt hlen)]
      · rw [getD_set_ne _ _ _ _ _ heq]
    case isFalse hge =>
      exact ⟨le_refl _, hmet⟩

theorem cfc_foldl_monotone (T s₀ s t : Nat) (pred : Label) (hits : List (Nat × Nat))
    (ht : t < T) :
    ∀ acc : MatrixState × Bool, (∀ q ∈ hits, q.1 < T) →
      t ∉ (acc.1.source_status.getD s default).remaining_locations →
      ((hits.foldl (cfcStep T s₀ pred) acc).1.best_connection.getD (s * T + t)
        default).cost.cost ≤ (acc.1.best_connection.getD (s * T + t) default).cost.cost ∧
      t ∉ ((hits.foldl (cfcStep T s₀ pred) acc).1.source_status.getD s
        default).remaining_locations := by
  induction hits with
  | nil =>
    intro acc _ hmet
    exact ⟨le_refl _, hmet⟩
  | cons q qs ih =>
    intro acc hb hmet
    have hstep := cfcStep_monotone T s₀ s t pred acc q ht (hb q (List.mem_cons_self q qs)) hmet
    have hrec := ih (cfcStep T s₀ pred acc q)
      (fun r hr => hb r (List.mem_cons_of_mem q hr)) hstep.2
    rw [List.foldl_cons]
    exact ⟨le_trans hrec.1 hstep.1, hrec.2⟩

theorem checkForwardConnections_monotone (T s₀ s t : Nat) (pred : Label)
    (st : MatrixState) (ht : t < T) (htm : TmBounded T st)
    (hmet : t ∉ (st.source_status.getD s default).remaining_locations) :
    ((CheckForwardConnections T s₀ pred st).1.best_connection.getD (s * T + t)
      default).cost.cost ≤ (st.best_connection.getD (s * T + t) default).cost.cost ∧
    t ∉ ((CheckForwardConnections T s₀ pred st).1.source_status.getD s
      default).remaining_locations :=
  cfc_foldl_monotone T s₀ s t pred _ ht (st, false)
    (getTargets_bounded T st htm pred.opp_edgeid) hmet

theorem forwardSettle_monotone (g : Graph) (c : Costing) (T s₀ s t i : Nat) (p : Label)
    (ls2 : LocSearch) (st : MatrixState) (ht : t < T) (htm : TmBounded T st)
    (hmet : t ∉ (st.source_status.getD s default).remaining_locations) :
    ((forwardSettle g c T s₀ i p ls2 st).best_connection.getD (s * T + t)
      default).cost.cost ≤ (st.best_connection.getD (s * T + t) default).cost.cost ∧
    t ∉ ((forwardSettle g c T s₀ i p ls2 st).source_status.getD s
      default).remaining_locations := by
  have hcfc := checkForwardConnections_monotone T s₀ s t p
    { st with sources := st.sources.set s₀ ls2 } ht htm hmet
  simp only [forwardSettle]
  split
  · constructor
    · exact hcfc.1
    · rw [decay_remaining]
      exact hcfc.2
  · exact ⟨hcfc.1, hcfc.2⟩

theorem forwardSearch_monotone (g : Graph) (c : Costing) (T s₀ s t : Nat)
    (st : MatrixState) (ht : t < T) (htm : TmBounded T st)
    (hmet : t ∉ (st.source_status.getD s default).remaining_locations) :
    ((ForwardSearch g c T s₀ st).best_connection.getD (s * T + t) default).cost.cost ≤
      (st.best_connection.getD (s * T + t) default).cost.cost ∧
    t ∉ ((ForwardSearch g c T s₀ st).source_status.getD s default).remaining_locations := by
  simp only [ForwardSearch]
  split
  · refine ⟨le_refl _, ?_⟩
    rw [terminateSource_remaining]
    exact hmet
  · refine ⟨le_refl _, ?_⟩
    rw [terminateSource_remaining]
    exact hmet
  · exact forwardSettle_monotone g c T s₀ s t _ _ _ st ht htm hmet

theorem tm_eq_bounded (T : Nat) (a b : MatrixState) (h : b.target_map = a.target_map)
    (htm : TmBounded T a) : TmBounded T b := by
  unfold TmBounded
  rw [h]
  exact htm

theorem default_locationStatus_threshold : (default : LocationStatus).threshold = 0 := rfl

theorem driverStep_preserves (g : Graph) (c cr : Costing) (T : Nat) (ch : Choice)
    (st : MatrixState) (hlen : st.target_status.length = T) (htm : TmBounded T st) :
    (driverStep g c cr T ch st).target_status.length = T ∧
    TmBounded T (driverStep g c cr T ch st) := by
  match ch with
  | .fwd s₀ =>
    simp only [driverStep, forwardDriverStep]
    split
    · obtain ⟨f1, f2, _, _, _, f6, _⟩ := forwardSearch_frame g c T s₀ st
      exact ⟨f6.trans hlen, tm_eq_bounded T st _ f2 htm⟩
    · exact ⟨hlen, htm⟩
  | .bwd t₀ =>
    simp only [driverStep, backwardDriverStep]
    split
    case isTrue hguard =>
      have ht₀ : t₀ < T := by
        by_contra hge
        have : st.target_status.getD t₀ default = default :=
          List.getD_eq_default _ _ (by omega)
        rw [this, default_locationStatus_threshold] at hguard
        exact absurd hguard (by omega)
      simp only [BackwardSearch]
      split
      · obtain ⟨_, _, _, t4, _, _, _, t8⟩ := terminateTarget_frame t₀ st
        exact ⟨t8.trans hlen, tm_eq_bounded T st _ t4 htm⟩
      · obtain ⟨_, _, _, t4, _, _, _, t8⟩ :=
          terminateTarget_frame t₀ { st with targets := st.targets.set t₀ _ }
        exact ⟨t8.trans hlen, tm_eq_bounded T st _ t4 htm⟩
      · rename_i i p ls2 _h
        refine ⟨hlen, ?_⟩
        intro pr hpr q hq
        exact tmInsert_bounded T st htm p.edgeid t₀ i ht₀ pr hpr q hq
    case isFalse =>
      exact ⟨hlen, htm⟩

theorem driverStep_monotone (g : Graph) (c cr : Costing) (T s t : Nat) (ch : Choice)
    (st : MatrixState) (ht : t < T) (_hlen : st.target_status.length = T)
    (htm : TmBounded T st)
    (hmet : t ∉ (st.source_status.getD s default).remaining_locations) :
    ((driverStep g c cr T ch st).best_connection.getD (s * T + t) default).cost.cost ≤
      (st.best_connection.getD (s * T + t) default).cost.cost ∧
    t ∉ ((driverStep g c cr T ch st).source_status.getD s default).remaining_locations := by
  match ch with
  | .fwd s₀ =>
    simp only [driverStep, forwardDriverStep]
    split
    · exact forwardSearch_monotone g c T s₀ s t st ht htm hmet
    · exact ⟨le_refl _, hmet⟩
  | .bwd t₀ =>
    simp only [driverStep, backwardDriverStep]
    split
    · obtain ⟨b1, _, b3, _, _, _, _, _⟩ := backwardSearch_frame g cr t₀ st
      constructor
      · rw [b1]
      · rw [b3]
        exact hmet
    · exact ⟨le_refl _, hmet⟩

theorem driverRun_monotone (g : Graph) (c cr : Costing) (T s t : Nat) (cs : List Choice)
    (ht : t < T) :
    ∀ st : MatrixState, st.target_status.length = T → TmBounded T st →
      t ∉ (st.source_status.getD s default).remaining_locations →
      ((driverRun g c cr T cs st).best_connection.getD (s * T + t) default).cost.cost ≤
        (st.best_connection.getD (s * T + t) default).cost.cost ∧
      t ∉ ((driverRun g c cr T cs st).source_status.getD s
        default).remaining_locations := by
  induction cs with
  | nil =>
    intro st _ _ hmet
    exact ⟨le_refl _, hmet⟩
  | cons ch cs ih =>
    intro st hlen htm hmet
    have hpres := driverStep_preserves g c cr T ch st hlen htm
    have hstep := driverStep_monotone g c cr T s t ch st ht hlen htm hmet
    have hrec := ih (driverStep g c cr T ch st) hpres.1 hpres.2 hstep.2
    have hcons : driverRun g c cr T (ch :: cs) st =
        driverRun g c cr T cs (driverStep g c cr T ch st) := by
      simp [driverRun]
    rw [hcons]
    exact ⟨le_trans hrec.1 hstep.1, hrec.2⟩

/-- C4: for every (source, target) pair, the recorded best-connection
cost is monotonically nonincreasing in query progress: once a meeting
has been recorded for the pair (the target has left the source's
remaining set), every later driver step — hence every later
`BestCandidate::Update` applied to that pair, which the connection
check guards by a strict cost comparison — leaves the pair's cost no
greater than before, along any schedule. -/
theorem c4_bestCost_monotone (g : Graph) (c cr : Costing) (T s t : Nat)
    (st : MatrixState) (cs : List Choice) (ht : t < T)
    (hlen : st.target_status.length = T) (htm : TmBounded T st)
    (hmet : t ∉ (st.source_status.getD s default).remaining_locations) :
    ((driverRun g c cr T cs st).best_connection.getD (s * T + t) default).cost.cost ≤
      (st.best_connection.getD (s * T + t) default).cost.cost ∧
    t ∉ ((driverRun g c cr T cs st).source_status.getD s default).remaining_locations :=
  driverRun_monotone g c cr T s t cs ht st hlen htm hmet

/-- Witness for C4 at a concrete input: a recorded pair, stepped by one
forward and one backward driver step. -/
theorem c4_bestCost_monotone_witness :
    (0 ∉ (wStMet.source_status.getD 0 default).remaining_locations) ∧
    ((driverRun wGraph wCosting wCosting 1 [Choice.fwd 0, Choice.bwd 0]
      wStMet).best_connection.getD 0 default).cost.cost ≤
      (wStMet.best_connection.getD 0 default).cost.cost :=
  ⟨by decide,
    (c4_bestCost_monotone wGraph wCosting wCosting 1 0 0 wStMet
      [Choice.fwd 0, Choice.bwd 0] (by decide) (by decide)
      (fun pr hpr => absurd hpr (List.not_mem_nil pr)) (by decide)).1⟩

theorem lsExtends_refl (a : LocSearch) : LsExtends a a :=
  ⟨fun _ _ h => h, fun _ _ h => h, fun _ _ h => h, le_refl _, fun _ _ => rfl⟩

theorem lsExtends_trans {a b c : LocSearch} (h1 : LsExtends a b) (h2 : LsExtends b c) :
    LsExtends a c := by
  obtain ⟨p1, p2, p3, p4, p5⟩ := h1
  obtain ⟨q1, q2, q3, q4, q5⟩ := h2
  refine ⟨fun e i h => q1 e i (p1 e i h), fun e i h => p2 e i (q2 e i h),
    fun e i h => q3 e i (p3 e i h), le_trans p4 q4, fun i hi => ?_⟩
  rw [q5 i (lt_of_lt_of_le hi p4), p5 i hi]

theorem getD_append_last {α : Type} [Inhabited α] (l : List α) (a d : α) :
    (l ++ [a]).getD l.length d = a := by
  rw [List.getD_eq_getElem _ _ (by simp)]
  exact List.getElem_concat_length l a l.length rfl (by simp)

theorem wf_congr (a b : LocSearch) (hadj : b.adjacency = a.adjacency)
    (hlen : b.edgelabel.length = a.edgelabel.length)
    (hlab : ∀ j, (b.edgelabel.getD j default).edgeid = (a.edgelabel.getD j default).edgeid)
    (hstat : ∀ e, statusOf b e = statusOf a e) (hwf : WF a) : WF b := by
  refine ⟨?_, ?_, ?_, ?_, ?_⟩
  · rw [hadj]
    exact hwf.nodup
  · intro j hj
    rw [hadj] at hj
    rw [hlen]
    exact hwf.adj_lt j hj
  · intro j hj
    rw [hadj] at hj
    rw [hstat, hlab]
    exact hwf.adj_status j hj
  · intro e i h
    rw [hstat] at h
    rw [hadj, hlab]
    exact hwf.temp_spec e i h
  · intro e i h
    rw [hstat] at h
    rw [hadj, hlen, hlab]
    exact hwf.perm_spec e i h

theorem insert_wf (ls : LocSearch) (k : Nat) (p : Label) (e : Edge) (newc : Cost)
    (hwf : WF ls) (hst : statusOf ls e.id = .unreached) :
    WF ⟨ls.edgelabel.length :: ls.adjacency,
        ls.edgelabel ++ [⟨some k, e.id, e.opp, e.endNode, newc, p.distance + e.dist⟩],
        setStatus ls.edgestatus e.id (.temporary ls.edgelabel.length)⟩ ∧
    LsExtends ls ⟨ls.edgelabel.length :: ls.adjacency,
        ls.edgelabel ++ [⟨some k, e.id, e.opp, e.endNode, newc, p.distance + e.dist⟩],
        setStatus ls.edgestatus e.id (.temporary ls.edgelabel.length)⟩ := by
  have hstat : ∀ e', getStatus (setStatus ls.edgestatus e.id
      (.temporary ls.edgelabel.length)) e' =
      if e' = e.id then EdgeSt.temporary ls.edgelabel.length else statusOf ls e' :=
    fun e' => getStatus_setStatus ls.edgestatus e.id e' _
  have hlabL : ∀ j, j < ls.edgelabel.length →
      (ls.edgelabel ++
        [(⟨some k, e.id, e.opp, e.endNode, newc, p.distance + e.dist⟩ : Label)]).getD j
        default = ls.edgelabel.getD j default :=
    fun j hj => List.getD_append _ _ _ _ hj
  have hlabNew : (ls.edgelabel ++
      [(⟨some k, e.id, e.opp, e.endNode, newc, p.distance + e.dist⟩ : Label)]).getD
      ls.edgelabel.length default =
      ⟨some k, e.id, e.opp, e.endNode, newc, p.distance + e.dist⟩ :=
    getD_append_last _ _ _
  have hnotmem : ls.edgelabel.length ∉ ls.adjacency :=
    fun hmem => absurd (hwf.adj_lt _ hmem) (lt_irrefl _)
  constructor
  · refine ⟨?_, ?_, ?_, ?_, ?_⟩
    · exact List.nodup_cons.mpr ⟨hnotmem, hwf.nodup⟩
    · intro j hj
      rcases List.mem_cons.mp hj with hj | hj
      · subst hj
        simp
      · have := hwf.adj_lt j hj
        simp only [List.length_append, List.length_cons, List.length_nil]
        omega
    · intro j hj
      show getStatus _ _ = _
      rcases List.mem_cons.mp hj with hj | hj
      · subst hj
        rw [hlabNew, hstat]
        rw [if_pos rfl]
      · have hjlt := hwf.adj_lt j hj
        rw [hlabL j hjlt, hstat]
        have hne : (ls.edgelabel.getD j default).edgeid ≠ e.id := by
          intro heq
          have := hwf.adj_status j hj
          rw [heq, hst] at this
          exact EdgeSt.noConfusion this
        rw [if_neg hne]
        exact hwf.adj_status j hj
    · intro e' i h
      replace h : (if e' = e.id then EdgeSt.temporary ls.edgelabel.length
          else statusOf ls e') = _ := (hstat e').symm.trans h
      by_cases he : e' = e.id
      · rw [if_pos he] at h
        have hi : ls.edgelabel.length = i := by
          injection h
        constructor
        · rw [← hi]
          exact List.mem_cons_self _ _
        · rw [← hi, hlabNew, he]
      · rw [if_neg he] at h
        obtain ⟨hmem, hedge⟩ := hwf.temp_spec e' i h
        exact ⟨List.mem_cons_of_mem _ hmem, by rw [hlabL i (hwf.adj_lt i hmem)]; exact hedge⟩
    · intro e' i h
      replace h : (if e' = e.id then EdgeSt.temporary ls.edgelabel.length
          else statusOf ls e') = _ := (hstat e').symm.trans h
      by_cases he : e' = e.id
      · rw [if_pos he] at h
        exact EdgeSt.noConfusion h
      · rw [if_neg he] at h
        obtain ⟨hmem, hlt, hedge⟩ := hwf.perm_spec e' i h
        refine ⟨?_, ?_, ?_⟩
        · intro hcon
          rcases List.mem_cons.mp hcon with hcon | hcon
          · omega
          · exact hmem hcon
        · simp only [List.length_append, List.length_cons, List.length_nil]
          omega
        · rw [hlabL i hlt]
          exact hedge
  · refine ⟨?_, ?_, ?_, ?_, ?_⟩
    · intro e' i h
      show getStatus _ _ = _
      rw [hstat]
      have hne : e' ≠ e.id := by
        intro heq
        rw [heq, hst] at h
        exact EdgeSt.noConfusion h
      rw [if_neg hne]
      exact h
    · intro e' i h
      replace h : (if e' = e.id then EdgeSt.temporary ls.edgelabel.length
          else statusOf ls e') = _ := (hstat e').symm.trans h
      by_cases he : e' = e.id
      · rw [if_pos he] at h
        exact EdgeSt.noConfusion h
      · rw [if_neg he] at h
        exact h
    · intro e' i h
      show getStatus _ _ = _
      rw [hstat]
      have hne : e' ≠ e.id := by
        intro heq
        rw [heq, hst] at h
        exact EdgeSt.noConfusion h
      rw [if_neg hne]
      exact h
    · simp
    · intro j hj
      show ((ls.edgelabel ++ _).getD j default).edgeid = _
      rw [hlabL j hj]

theorem relax_wf (c : Costing) (k : Nat) (p : Label) (ls : LocSearch) (e : Edge)
    (hwf : WF ls) : WF (relax c k p ls e) ∧ LsExtends ls (relax c k p ls e) := by
  unfold relax
  split
  · exact ⟨hwf, lsExtends_refl ls⟩
  · split
    · exact ⟨hwf, lsExtends_refl ls⟩
    · rename_i i hst
      dsimp only
      split
      · have hst' : statusOf ls e.id = .temporary i := hst
        obtain ⟨hmem, _hedge⟩ := hwf.temp_spec e.id i hst'
        have hlt : i < ls.edgelabel.length := hwf.adj_lt i hmem
        have hlab : ∀ j,
            ((ls.edgelabel.set i
              { ls.edgelabel.getD i default with
                predecessor := some k,
                cost := p.cost + c.edge_cost e + c.transition_cost p.edgeid e,
                distance := p.distance + e.dist }).getD j default).edgeid =
            ((ls.edgelabel.getD j default)).edgeid := by
          intro j
          by_cases hij : i = j
          · subst hij
            rw [getD_set_self _ _ _ _ hlt]
          · rw [getD_set_ne _ _ _ _ _ hij]
        constructor
        · exact wf_congr ls _ rfl (List.length_set ..) hlab (fun _ => rfl) hwf
        · exact ⟨fun _ _ h => h, fun _ _ h => h, fun _ _ h => h,
            le_of_eq (List.length_set ..).symm, fun j _ => hlab j⟩
      · exact ⟨hwf, lsExtends_refl ls⟩
    · rename_i hst
      exact insert_wf ls k p e _ hwf hst

theorem expand_wf (c : Costing) (k : Nat) (p : Label) (es : List Edge) :
    ∀ ls : LocSearch, WF ls →
      WF (es.foldl (relax c k p) ls) ∧ LsExtends ls (es.foldl (relax c k p) ls) := by
  induction es with
  | nil =>
    intro ls hwf
    exact ⟨hwf, lsExtends_refl ls⟩
  | cons e es ih =>
    intro ls hwf
    obtain ⟨hw1, he1⟩ := relax_wf c k p ls e hwf
    obtain ⟨hw2, he2⟩ := ih (relax c k p ls e) hw1
    rw [List.foldl_cons]
    exact ⟨hw2, lsExtends_trans he1 he2⟩

theorem settle_wf (thr : Rat) (ls : LocSearch) (i : Nat) (p : Label) (ls2 : LocSearch)
    (hwf : WF ls) (h : popAndSettle thr ls = .settled i p ls2) :
    WF ls2 ∧
    ls2.edgelabel = ls.edgelabel ∧
    statusOf ls p.edgeid = .temporary i ∧
    (∀ e', statusOf ls2 e' =
      if e' = p.edgeid then EdgeSt.permanent i else statusOf ls e') := by
  cases hp : popMin ls with
  | none =>
    have hx : PopResult.exhausted = PopResult.settled i p ls2 := by
      rw [← h]
      unfold popAndSettle
      rw [hp]
    exact absurd hx (by simp)
  | some pr =>
    obtain ⟨j, ls1⟩ := pr
    obtain ⟨p1, p2, p3, p4⟩ := popMin_spec ls j ls1 hp
    have h' : (if thr < (ls1.edgelabel.getD j default).cost.cost then
        PopResult.pruned j ls1
      else
        PopResult.settled j (ls1.edgelabel.getD j default)
          ⟨ls1.adjacency, ls1.edgelabel,
            setStatus ls1.edgestatus (ls1.edgelabel.getD j default).edgeid
              (.permanent j)⟩) = PopResult.settled i p ls2 := by
      rw [← h]
      unfold popAndSettle
      rw [hp]
    split at h'
    · exact absurd h' (by simp)
    · obtain ⟨hj, hpv, hls2eq⟩ := PopResult.settled.inj h'
      subst hj
      have hls2 : ls2 = { ls1 with
          edgestatus := setStatus ls1.edgestatus
            (ls1.edgelabel.getD j default).edgeid (.permanent j) } :=
        hls2eq.symm
      have hpe : p.edgeid = (ls.edgelabel.getD j default).edgeid := by
        rw [← hpv, p1]
      have hstatus : statusOf ls p.edgeid = .temporary j := by
        rw [hpe]
        exact hwf.adj_status j p4
      have hstat2 : ∀ e', statusOf ls2 e' =
          if e' = p.edgeid then EdgeSt.permanent j else statusOf ls e' := by
        intro e'
        rw [hls2]
        show getStatus (setStatus ls1.edgestatus _ _) e' = _
        rw [getStatus_setStatus]
        rw [hpv, p2]
        rfl
      refine ⟨?_, by rw [hls2, p1], hstatus, hstat2⟩
      have hjlt : j < ls.edgelabel.length := hwf.adj_lt j p4
      have hadj2 : ls2.adjacency = ls.adjacency.erase j := by
        rw [hls2, p3]
      have hlab2 : ls2.edgelabel = ls.edgelabel := by
        rw [hls2, p1]
      refine ⟨?_, ?_, ?_, ?_, ?_⟩
      · rw [hadj2]
        exact hwf.nodup.erase j
      · intro x hx
        rw [hadj2] at hx
        rw [hlab2]
        exact hwf.adj_lt x (List.mem_of_mem_erase hx)
      · intro x hx
        rw [hadj2] at hx
        obtain ⟨hxj, hxmem⟩ := (hwf.nodup.mem_erase_iff).mp hx
        rw [hlab2, hstat2]
        have hne : (ls.edgelabel.getD x default).edgeid ≠ p.edgeid := by
          intro heq
          have h1 := hwf.adj_status x hxmem
          rw [heq, hstatus] at h1
          injection h1 with h1
          exact hxj h1.symm
        rw [if_neg hne]
        exact hwf.adj_status x hxmem
      · intro e' x hx
        rw [hstat2 e'] at hx
        by_cases he : e' = p.edgeid
        · rw [if_pos he] at hx
          exact EdgeSt.noConfusion hx
        · rw [if_neg he] at hx
          obtain ⟨hxmem, hedge⟩ := hwf.temp_spec e' x hx
          have hxj : x ≠ j := by
            intro hxj
            subst hxj
            rw [← hpe] at hedge
            exact he (hedge.symm ▸ rfl)
          rw [hadj2, hlab2]
          exact ⟨(hwf.nodup.mem_erase_iff).mpr ⟨hxj, hxmem⟩, hedge⟩
      · intro e' x hx
        rw [hstat2 e'] at hx
        by_cases he : e' = p.edgeid
        · rw [if_pos he] at hx
          have hxj : j = x := by
            injection hx
          subst hxj
          rw [hadj2, hlab2]
          exact ⟨hwf.nodup.not_mem_erase, hjlt, by rw [← hpe, he]⟩
        · rw [if_neg he] at hx
          obtain ⟨hxmem, hxlt, hedge⟩ := hwf.perm_spec e' x hx
          rw [hadj2, hlab2]
          exact ⟨fun hcon => hxmem (List.mem_of_mem_erase hcon), hxlt, hedge⟩

theorem pruned_spec (thr : Rat) (ls : LocSearch) (i : Nat) (ls1 : LocSearch)
    (h : popAndSettle thr ls = .pruned i ls1) :
    ls1.edgelabel = ls.edgelabel ∧ ls1.edgestatus = ls.edgestatus := by
  cases hp : popMin ls with
  | none =>
    have hx : PopResult.exhausted = PopResult.pruned i ls1 := by
      rw [← h]
      unfold popAndSettle
      rw [hp]
    exact absurd hx (by simp)
  | some pr =>
    obtain ⟨j, lsp⟩ := pr
    obtain ⟨p1, p2, _p3, _p4⟩ := popMin_spec ls j lsp hp
    have h' : (if thr < (lsp.edgelabel.getD j default).cost.cost then
        PopResult.pruned j lsp
      else
        PopResult.settled j (lsp.edgelabel.getD j default)
          ⟨lsp.adjacency, lsp.edgelabel,
            setStatus lsp.edgestatus (lsp.edgelabel.getD j default).edgeid
              (.permanent j)⟩) = PopResult.pruned i ls1 := by
      rw [← h]
      unfold popAndSettle
      rw [hp]
    split at h'
    · obtain ⟨_hj, hls⟩ := PopResult.pruned.inj h'
      rw [← hls]
      exact ⟨p1, p2⟩
    · exact absurd h' (by simp)

/-- C7: within a single per-location search (one source's forward
search or one target's backward search, both of which step through
`searchStep`), every edge identifier is marked Permanent at most once:
from a well-formed state, one step (i) preserves well-formedness
whenever the search continues, (ii) never changes an existing Permanent
mark, (iii) creates a Permanent mark only for an edge that was queued
as Temporary with the same label index (the popped edge), (iv) keeps
every Temporary edge on its existing label slot — a cheaper path is
applied by decrease-key in place, never by re-inserting a new label or
re-settling — and (v) never changes the edge an existing label refers
to. -/
theorem c7_permanentOnce (g : Graph) (c : Costing) (thr : Rat) (ls : LocSearch)
    (hwf : WF ls) :
    ((searchStep g c thr ls).2 = true → WF (searchStep g c thr ls).1) ∧
    (∀ e k, statusOf ls e = .permanent k →
      statusOf (searchStep g c thr ls).1 e = .permanent k) ∧
    (∀ e k, statusOf (searchStep g c thr ls).1 e = .permanent k →
      statusOf ls e = .permanent k ∨ statusOf ls e = .temporary k) ∧
    (∀ e k, statusOf ls e = .temporary k →
      statusOf (searchStep g c thr ls).1 e = .temporary k ∨
      statusOf (searchStep g c thr ls).1 e = .permanent k) ∧
    (∀ j, j < ls.edgelabel.length →
      ((searchStep g c thr ls).1.edgelabel.getD j default).edgeid =
        (ls.edgelabel.getD j default).edgeid) := by
  simp only [searchStep]
  split
  · exact ⟨fun hc => absurd hc (by simp), fun _ _ h => h, fun _ _ h => Or.inl h,
      fun _ _ h => Or.inl h, fun _ _ => rfl⟩
  · rename_i i ls1 heq
    obtain ⟨q1, q2⟩ := pruned_spec thr ls i ls1 heq
    have hstat1 : ∀ e, statusOf ls1 e = statusOf ls e := by
      intro e
      show getStatus ls1.edgestatus e = _
      rw [q2]
      rfl
    refine ⟨fun hc => absurd hc (by simp), ?_, ?_, ?_, ?_⟩
    · intro e k h
      rw [hstat1]
      exact h
    · intro e k h
      rw [hstat1] at h
      exact Or.inl h
    · intro e k h
      rw [hstat1]
      exact Or.inl h
    · intro j _
      rw [q1]
  · rename_i i p ls2 heq
    obtain ⟨hwf2, hlab2, hstatus, hstat2⟩ := settle_wf thr ls i p ls2 hwf heq
    obtain ⟨hwfE, hext⟩ :=
      expand_wf c i p (g.edges.filter (fun e => e.startNode == p.endNode)) ls2 hwf2
    obtain ⟨x1, x2, x3, x4, x5⟩ := hext
    refine ⟨fun _ => hwfE, ?_, ?_, ?_, ?_⟩
    · intro e k h
      have hne : e ≠ p.edgeid := by
        intro hcon
        rw [hcon, hstatus] at h
        exact EdgeSt.noConfusion h
      have h2 : statusOf ls2 e = .permanent k := by
        rw [hstat2 e, if_neg hne]
        exact h
      exact x1 e k h2
    · intro e k h
      have h2 : statusOf ls2 e = .permanent k := x2 e k h
      rw [hstat2 e] at h2
      by_cases he : e = p.edgeid
      · rw [if_pos he] at h2
        have hk : i = k := by
          injection h2
        right
        rw [he, ← hk]
        exact hstatus
      · rw [if_neg he] at h2
        exact Or.inl h2
    · intro e k h
      by_cases he : e = p.edgeid
      · have hk : k = i := by
          rw [he, hstatus] at h
          injection h with h
          exact h.symm
        right
        subst hk
        apply x1
        rw [hstat2 e, if_pos he]
      · left
        apply x3
        rw [hstat2 e, if_neg he]
        exact h
    · intro j hj
      have hj2 : j < ls2.edgelabel.length := by
        rw [hlab2]
        exact hj
      show (((g.edges.filter (fun e => e.startNode == p.endNode)).foldl
        (relax c i p) ls2).edgelabel.getD j default).edgeid = _
      rw [x5 j hj2, hlab2]

theorem getStatus_nil (e : Nat) : getStatus [] e = .unreached := rfl

theorem getStatus_cons (a : Nat) (s : EdgeSt) (es : List (Nat × EdgeSt)) (e : Nat) :
    getStatus ((a, s) :: es) e = if e = a then s else getStatus es e := by
  by_cases h : e = a
  · simp [getStatus, List.lookup, h]
  · have hb : (e == a) = false := by simp [h]
    simp [getStatus, List.lookup, hb, h]

theorem wLsWF2_statusOf (e : Nat) :
    statusOf wLsWF2 e =
      if e = 3 then EdgeSt.temporary 1
      else if e = 1 then EdgeSt.permanent 0
      else EdgeSt.unreached := by
  show getStatus [(3, EdgeSt.temporary 1), (1, EdgeSt.permanent 0)] e = _
  rw [getStatus_cons, getStatus_cons, getStatus_nil]

theorem wLsWF2_wf : WF wLsWF2 := by
  refine ⟨by decide, by decide, by decide, ?_, ?_⟩
  · intro e i h
    rw [wLsWF2_statusOf] at h
    by_cases h3 : e = 3
    · rw [if_pos h3] at h
      injection h with hi
      subst h3
      subst hi
      exact ⟨by decide, by decide⟩
    · rw [if_neg h3] at h
      by_cases h1 : e = 1
      · rw [if_pos h1] at h
        exact EdgeSt.noConfusion h
      · rw [if_neg h1] at h
        exact EdgeSt.noConfusion h
  · intro e i h
    rw [wLsWF2_statusOf] at h
    by_cases h3 : e = 3
    · rw [if_pos h3] at h
      exact EdgeSt.noConfusion h
    · rw [if_neg h3] at h
      by_cases h1 : e = 1
      · rw [if_pos h1] at h
        injection h with hi
        subst h1
        subst hi
        exact ⟨by decide, by decide, by decide⟩
      · rw [if_neg h1] at h
        exact EdgeSt.noConfusion h

/-- Witness for C7 at a concrete input: one step from a well-formed
state keeps the previously settled edge 1 Permanent with its label 0. -/
theorem c7_permanentOnce_witness :
    (searchStep wGraph wCosting 100 wLsWF2).2 = true ∧
    statusOf (searchStep wGraph wCosting 100 wLsWF2).1 1 = EdgeSt.permanent 0 :=
  ⟨by decide,
    (c7_permanentOnce wGraph wCosting 100 wLsWF2 wLsWF2_wf).2.1 1 0 (by decide)⟩

end Valhalla
